import Mathlib

/-!
# Verification of the Migration-Agent task-graph execution engine

A shallow embedding of the core of the Migration-Agent repository
(`src/plan_manager.py`, `src/agents/coding_agent.py`, `src/tools.py`)
together with proofs and refutations of the frozen specification claims.

Strings are modelled as `List Char` (Python `str`), filesystem paths as
`List (List Char)` (the component sequence of an absolute POSIX path, as
`pathlib.Path.parts` after `resolve()`; the root is `[]`).  `Path.resolve()`
is modelled lexically (symlink-free filesystem), which is the reading the
specification itself uses ("canonicalizes `.`/`..`").
-/

namespace MigrationAgent

/-! ## Basic character and string helpers (Python semantics) -/

/-- Python `\s` for the ASCII range (space, tab, newline, CR, VT, FF). -/
def pySpace (c : Char) : Bool :=
  c = ' ' || c = '\t' || c = '\n' || c = '\r' || c = '\x0b' || c = '\x0c'

/-- One character of the regex class `[a-zA-Z0-9_-]`. -/
def idClassChar (c : Char) : Bool :=
  c.isAlpha || c.isDigit || c = '_' || c = '-'

/-- Python `str.strip()`: drop leading and trailing whitespace. -/
def pyStrip (cs : List Char) : List Char :=
  ((cs.dropWhile pySpace).reverse.dropWhile pySpace).reverse

/-- Python `sub in s` (substring containment). -/
def containsSub (pat : List Char) : List Char → Bool
  | [] => pat.isEmpty
  | c :: rest => pat.isPrefixOf (c :: rest) || containsSub pat rest

/-- Longest prefix of the string before the first occurrence of `pat`
(the whole string when `pat` does not occur): Python `s.split(pat)[0]`. -/
def beforeFirst (pat : List Char) : List Char → List Char
  | [] => []
  | c :: rest =>
    if pat.isPrefixOf (c :: rest) then []
    else c :: beforeFirst pat rest

/-- The suffix after the first occurrence of `pat` (empty when absent). -/
def afterFirst (pat : List Char) : List Char → List Char
  | [] => []
  | c :: rest =>
    if pat.isPrefixOf (c :: rest) then (c :: rest).drop pat.length
    else afterFirst pat rest

/-! ## Sandbox path resolution (`CodingAgent._resolve_sandbox_path`)

A path component list is canonical when no component is empty, `"."`
or `".."` — exactly the shape `pathlib.Path.resolve()` returns. -/

/-- Split a raw path string on `'/'` (the component decomposition used by
`pathlib`; empty components are later discarded by resolution). -/
def splitOnSlash (cs : List Char) : List (List Char) :=
  match cs with
  | [] => [[]]
  | c :: rest =>
    match splitOnSlash rest with
    | [] => [[]]
    | seg :: segs => if c = '/' then [] :: seg :: segs else (c :: seg) :: segs

/-- One step of lexical path canonicalization: skip empty and `"."`
components, pop the last component for `".."` (saturating at the root,
as `Path("/..").resolve() == Path("/")`). -/
def resolveStep (acc : List (List Char)) (c : List Char) : List (List Char) :=
  if c = [] || c = ['.'] then acc
  else if c = ['.', '.'] then acc.dropLast
  else acc ++ [c]

/-- Lexical model of `Path.resolve()` on an absolute component list. -/
def resolvePath (cs : List (List Char)) : List (List Char) :=
  cs.foldl resolveStep []

/-- A canonical component: not empty, not `"."`, not `".."`. -/
def canonicalComp (c : List Char) : Bool :=
  !(c = [] || c = ['.'] || c = ['.', '.'])

/-- All components canonical (the invariant of resolved paths). -/
def canonicalPath (p : List (List Char)) : Bool :=
  p.all canonicalComp

/-- `pathlib` joining `base / s`: an absolute right operand overrides the
base entirely; otherwise the components are appended. -/
def joinPath (base : List (List Char)) (s : List Char) : List (List Char) :=
  if s.head? = some '/' then splitOnSlash s else base ++ splitOnSlash s

/-- The two sandbox zones of `CodingAgent` (`context_dir_type`). -/
inductive Zone where
  | input
  | output
  deriving Repr, DecidableEq

/-- The directory triple held by a `CodingAgent` instance. -/
structure SandboxDirs where
  sandbox_dir : List (List Char)
  input_dir : List (List Char)
  output_dir : List (List Char)
  deriving Repr, DecidableEq

/-- `CodingAgent.__init__`: `sandbox_dir.resolve()`, then
`(sandbox_dir / "input").resolve()` and `(sandbox_dir / "output").resolve()`. -/
def SandboxDirs.ofRaw (raw : List Char) : SandboxDirs :=
  let sd := resolvePath (splitOnSlash raw)
  { sandbox_dir := sd
    input_dir := resolvePath (sd ++ ["input".data])
    output_dir := resolvePath (sd ++ ["output".data]) }

/-- The root directory of a zone (`base_dir` in `_resolve_sandbox_path`). -/
def zoneRoot (sb : SandboxDirs) : Zone → List (List Char)
  | .input => sb.input_dir
  | .output => sb.output_dir

/-- `CodingAgent._resolve_sandbox_path(relative_path, context_dir_type)`:
strip a redundant matching zone prefix, join to the zone root, resolve,
and raise `PermissionError` (here `.error`) unless the canonical result
is the zone root or below it (`Path.is_relative_to`, which on resolved
paths is the component-prefix test). -/
def resolveSandboxPath (sb : SandboxDirs) (relative_path : List Char)
    (zone : Zone) : Except Unit (List (List Char)) :=
  let base_dir := zoneRoot sb zone
  let path_to_resolve := match zone with
    | .input =>
      if "input/".data.isPrefixOf relative_path then relative_path.drop 6
      else relative_path
    | .output =>
      if "output/".data.isPrefixOf relative_path then relative_path.drop 7
      else relative_path
  let abs_path := resolvePath (joinPath base_dir path_to_resolve)
  if ¬ base_dir.isPrefixOf abs_path ∧ abs_path ≠ base_dir then
    .error ()  -- PermissionError: path outside the allowed directory
  else
    .ok abs_path

/-! ## Sandboxed tool wrappers (`_sandboxed_edit_file`, `_sandboxed_list_files`) -/

/-- Result of the pure decision part of `_sandboxed_edit_file`:
either a textual error result returned before any filesystem call, or
the resolved absolute target handed to the raw `edit_file` tool. -/
inductive EditFileStep where
  | errorNoWrite          -- "Error: `edit_file` path must be prefixed with 'output/'."
  | permissionDenied      -- PermissionError caught, returned as text, no write
  | fsWrite (target : List (List Char))
  deriving Repr, DecidableEq

/-- `CodingAgent._sandboxed_edit_file(path, content)` up to the point of the
filesystem call. -/
def sandboxedEditFile (sb : SandboxDirs) (path : List Char) : EditFileStep :=
  if ¬ "output/".data.isPrefixOf path then .errorNoWrite
  else
    match resolveSandboxPath sb path .output with
    | .error _ => .permissionDenied
    | .ok abs_path => .fsWrite abs_path

/-- Result of the pure decision part of `_sandboxed_list_files`. -/
inductive ListFilesStep where
  | rejected              -- "Error: `list_files` directory must be prefixed ..."
  | permissionDenied
  | resolved (zone : Zone) (target : List (List Char))
  deriving Repr, DecidableEq

/-- `CodingAgent._sandboxed_list_files(directory)` up to the filesystem call:
`context_type` starts as `"input"`, becomes `"output"` only for an
`"output/"`-prefixed argument; the bare names `"input"`, `"input/"`,
`"output"`, `"output/"` are accepted (the `pass` branches) but leave
`context_type` untouched. -/
def sandboxedListFiles (sb : SandboxDirs) (directory : List Char) : ListFilesStep :=
  let context_type : Zone :=
    if "output/".data.isPrefixOf directory then .output else .input
  if ¬ "output/".data.isPrefixOf directory ∧ ¬ "input/".data.isPrefixOf directory ∧
      directory ≠ "input".data ∧ directory ≠ "input/".data ∧
      directory ≠ "output".data ∧ directory ≠ "output/".data then
    .rejected
  else
    match resolveSandboxPath sb directory context_type with
    | .error _ => .permissionDenied
    | .ok abs_path => .resolved context_type abs_path

/-! ### Lemmas about path resolution -/

theorem canonicalPath_resolveStep (acc : List (List Char)) (c : List Char)
    (h : canonicalPath acc = true) : canonicalPath (resolveStep acc c) = true := by
  unfold resolveStep
  split
  · exact h
  · split
    · unfold canonicalPath at h ⊢
      exact List.all_eq_true.mpr fun x hx =>
        List.all_eq_true.mp h x (List.dropLast_subset _ hx)
    · unfold canonicalPath at h ⊢
      rename_i h1 h2
      simp only [List.all_append, List.all_cons, List.all_nil, Bool.and_true,
        Bool.and_eq_true]
      refine ⟨h, ?_⟩
      simp only [canonicalComp, Bool.or_eq_true, decide_eq_true_eq, not_or] at h1 ⊢
      simp [h1.1, h1.2, h2]

theorem canonicalPath_foldl (cs : List (List Char)) :
    ∀ acc, canonicalPath acc = true →
      canonicalPath (cs.foldl resolveStep acc) = true := by
  induction cs with
  | nil => intro acc h; exact h
  | cons c rest ih =>
    intro acc h
    exact ih _ (canonicalPath_resolveStep acc c h)

/-- Every resolved path is canonical. -/
theorem canonicalPath_resolvePath (cs : List (List Char)) :
    canonicalPath (resolvePath cs) = true :=
  canonicalPath_foldl cs [] rfl

/-- Folding resolution over canonical components just appends them. -/
theorem foldl_resolveStep_canonical (cs : List (List Char)) :
    ∀ acc, (∀ c ∈ cs, canonicalComp c = true) →
      cs.foldl resolveStep acc = acc ++ cs := by
  induction cs with
  | nil => intro acc _; simp
  | cons c rest ih =>
    intro acc h
    have hc : canonicalComp c = true := h c (by simp)
    simp only [canonicalComp, Bool.not_eq_true', Bool.or_eq_false_iff,
      decide_eq_false_iff_not] at hc
    have step : resolveStep acc c = acc ++ [c] := by
      unfold resolveStep
      rw [if_neg, if_neg]
      · simp [hc.2]
      · simp [hc.1.1, hc.1.2]

    simp only [List.foldl_cons, step]
    rw [ih (acc ++ [c]) (fun x hx => h x (by simp [hx]))]
    simp

theorem resolvePath_of_canonical (cs : List (List Char))
    (h : canonicalPath cs = true) : resolvePath cs = cs := by
  have := foldl_resolveStep_canonical cs []
    (fun c hc => List.all_eq_true.mp h c hc)
  simpa [resolvePath] using this

/-- Boolean prefix test versus the prefix relation (alias of the core lemma). -/
theorem isPrefixOf_eq_true_iff {α : Type} [BEq α] [LawfulBEq α] {l₁ l₂ : List α} :
    l₁.isPrefixOf l₂ = true ↔ l₁ <+: l₂ :=
  List.isPrefixOf_iff_prefix

theorem ofRaw_sandbox_canonical (raw : List Char) :
    canonicalPath (SandboxDirs.ofRaw raw).sandbox_dir = true :=
  canonicalPath_resolvePath _

theorem ofRaw_input_dir (raw : List Char) :
    (SandboxDirs.ofRaw raw).input_dir =
      (SandboxDirs.ofRaw raw).sandbox_dir ++ ["input".data] := by
  have hc : canonicalPath
      ((SandboxDirs.ofRaw raw).sandbox_dir ++ ["input".data]) = true := by
    have h1 := ofRaw_sandbox_canonical raw
    simp only [canonicalPath, List.all_append, List.all_cons, List.all_nil,
      Bool.and_true, Bool.and_eq_true] at h1 ⊢
    exact ⟨h1, by decide⟩
  show resolvePath _ = _
  exact resolvePath_of_canonical _ hc

theorem ofRaw_output_dir (raw : List Char) :
    (SandboxDirs.ofRaw raw).output_dir =
      (SandboxDirs.ofRaw raw).sandbox_dir ++ ["output".data] := by
  have hc : canonicalPath
      ((SandboxDirs.ofRaw raw).sandbox_dir ++ ["output".data]) = true := by
    have h1 := ofRaw_sandbox_canonical raw
    simp only [canonicalPath, List.all_append, List.all_cons, List.all_nil,
      Bool.and_true, Bool.and_eq_true] at h1 ⊢
    exact ⟨h1, by decide⟩
  show resolvePath _ = _
  exact resolvePath_of_canonical _ hc

/-! ### Claim C1: sandbox containment -/

/-- The final containment guard of `_resolve_sandbox_path`, characterised
for an arbitrary base directory and candidate path. -/
theorem sandboxGuard_spec (base q : List (List Char))
    (hq : canonicalPath q = true) :
    (if ¬ base.isPrefixOf q = true ∧ q ≠ base then
        (Except.error () : Except Unit (List (List Char)))
      else .ok q) = .error () ∨
    ∃ r, (if ¬ base.isPrefixOf q = true ∧ q ≠ base then
        (Except.error () : Except Unit (List (List Char)))
      else .ok q) = .ok r ∧ base <+: r ∧ canonicalPath r = true := by
  by_cases h : ¬ base.isPrefixOf q = true ∧ q ≠ base
  · left
    rw [if_pos h]
  · right
    refine ⟨q, by rw [if_neg h], ?_, hq⟩
    rcases not_and_or.mp h with h1 | h2
    · exact isPrefixOf_eq_true_iff.mp (not_not.mp h1)
    · rw [not_not.mp h2]

/-- C1: for every path argument (including ones with `..` segments or
absolute overrides) and either zone, `_resolve_sandbox_path` either raises
`PermissionError` or returns a canonical path equal to or inside the zone
root; it never returns a path outside the zone. -/
theorem C1_sandbox_containment (sb : SandboxDirs) (p : List Char) (zone : Zone) :
    resolveSandboxPath sb p zone = .error () ∨
    ∃ q, resolveSandboxPath sb p zone = .ok q ∧
      zoneRoot sb zone <+: q ∧ canonicalPath q = true :=
  sandboxGuard_spec (zoneRoot sb zone) _ (canonicalPath_resolvePath _)

/-! ### Claim C2: write isolation -/

theorem no_outputPrefix_of_inputPrefix {path : List Char}
    (h : "input/".data.isPrefixOf path = true) :
    ¬ "output/".data.isPrefixOf path = true := by
  intro ho
  have hi' : "input/".data <+: path := isPrefixOf_eq_true_iff.mp h
  have ho' : "output/".data <+: path := isPrefixOf_eq_true_iff.mp ho
  rcases List.prefix_or_prefix_of_prefix hi' ho' with h' | h'
  · exact absurd h' (by decide)
  · exact absurd h' (by decide)

/-- C2: `_sandboxed_edit_file` returns an error result, before any
filesystem call, for every path not prefixed with `output/`; in particular
every `input/`-prefixed path is rejected. -/
theorem C2_write_isolation (sb : SandboxDirs) (path : List Char) :
    (¬ "output/".data.isPrefixOf path = true →
      sandboxedEditFile sb path = .errorNoWrite) ∧
    ("input/".data.isPrefixOf path = true →
      sandboxedEditFile sb path = .errorNoWrite) := by
  constructor
  · intro h
    unfold sandboxedEditFile
    rw [if_pos h]
  · intro h
    unfold sandboxedEditFile
    rw [if_pos (no_outputPrefix_of_inputPrefix h)]

/-- Witness for C2 at the concrete path `input/src/app.module.ts`. -/
theorem C2_write_isolation_witness :
    sandboxedEditFile (SandboxDirs.ofRaw "/sandbox".data)
      "input/src/app.module.ts".data = .errorNoWrite :=
  (C2_write_isolation (SandboxDirs.ofRaw "/sandbox".data)
    "input/src/app.module.ts".data).2 (by decide)

/-! ### Claim C10: bare `output` resolves against the input zone -/

/-- C10: `_sandboxed_list_files` called with exactly `output` is accepted,
but the path is resolved against the input zone root, yielding a target
inside the input zone (and not under the output zone root). -/
theorem C10_bare_output_listed_in_input_zone (raw : List Char) :
    sandboxedListFiles (SandboxDirs.ofRaw raw) "output".data =
      .resolved Zone.input
        ((SandboxDirs.ofRaw raw).input_dir ++ ["output".data]) ∧
    ¬ (SandboxDirs.ofRaw raw).output_dir <+:
        (SandboxDirs.ofRaw raw).input_dir ++ ["output".data] := by
  constructor
  · unfold sandboxedListFiles
    have hop : "output/".data.isPrefixOf "output".data = false := by decide
    have hres : resolveSandboxPath (SandboxDirs.ofRaw raw) "output".data .input =
        .ok ((SandboxDirs.ofRaw raw).input_dir ++ ["output".data]) := by
      simp only [resolveSandboxPath, zoneRoot]
      have hstrip : "input/".data.isPrefixOf "output".data = false := by decide
      have hjoin : joinPath (SandboxDirs.ofRaw raw).input_dir "output".data =
          (SandboxDirs.ofRaw raw).input_dir ++ ["output".data] := by
        unfold joinPath
        rw [if_neg (by decide)]
        rfl
      have hcanon : canonicalPath
          ((SandboxDirs.ofRaw raw).input_dir ++ ["output".data]) = true := by
        have h1 : canonicalPath (SandboxDirs.ofRaw raw).input_dir = true :=
          canonicalPath_resolvePath _
        simp only [canonicalPath, List.all_append, List.all_cons, List.all_nil,
          Bool.and_true, Bool.and_eq_true] at h1 ⊢
        exact ⟨h1, by decide⟩
      simp only [hstrip, Bool.false_eq_true, if_false, hjoin,
        resolvePath_of_canonical _ hcanon]
      rw [if_neg]
      intro hcontra
      exact hcontra.1 (isPrefixOf_eq_true_iff.mpr
        (List.prefix_append (SandboxDirs.ofRaw raw).input_dir ["output".data]))
    simp only [hop, Bool.false_eq_true, if_false]
    rw [if_neg (by simp), hres]
  · rw [ofRaw_output_dir, ofRaw_input_dir]
    intro hcontra
    obtain ⟨t, ht⟩ := hcontra
    simp only [List.append_assoc] at ht
    have h2 := List.append_cancel_left ht
    simp only [List.cons_append, List.nil_append, List.cons.injEq] at h2
    exact absurd h2.1 (by decide)

/-! ## The plan store (`src/plan_manager.py`, `src/domain/task.py`)

The plan document is a line-oriented Markdown task list.  Lines are
`List Char`; a document is split into lines with Python `splitlines`
semantics for `'\n'` (the only line separator the serializer ever emits). -/

/-- `domain.task.Task`: one unit of work of the migration plan. -/
structure Task where
  id : List Char
  description : List Char
  status : List Char := "todo".data
  depends_on : List (List Char) := []
  notes : Option (List Char) := none
  raw_lines : List (List Char) := []
  deriving Repr, DecidableEq

/-- `Task.__post_init__`: a non-empty description is stripped. -/
def Task.create (id description status : List Char)
    (depends_on : List (List Char)) (notes : Option (List Char))
    (raw_lines : List (List Char)) : Task :=
  { id := id
    description := if description = [] then description else pyStrip description
    status := status
    depends_on := depends_on
    notes := notes
    raw_lines := raw_lines }

/-- Python `str.splitlines()` restricted to `'\n'` separators (the
serializer emits no other line break): no trailing empty line is produced
for a trailing newline. -/
def splitLines (cs : List Char) : List (List Char) :=
  match cs with
  | [] => []
  | c :: rest =>
    if c = '\n' then [] :: splitLines rest
    else
      match splitLines rest with
      | [] => [[c]]
      | l :: ls => (c :: l) :: ls

/-- Python `sep.join(items)`. -/
def joinSep (sep : List Char) : List (List Char) → List Char
  | [] => []
  | [l] => l
  | l :: l' :: ls => l ++ sep ++ joinSep sep (l' :: ls)

/-- Python `s.split(',')` (all occurrences, keeping empty segments). -/
def splitOnComma (cs : List Char) : List (List Char) :=
  match cs with
  | [] => [[]]
  | c :: rest =>
    match splitOnComma rest with
    | [] => [[]]
    | seg :: segs => if c = ',' then [] :: seg :: segs else (c :: seg) :: segs

/-! ### The task-line regex cascade

Each Python regex of `task_line_regexes` is translated to a deterministic
matcher.  Greedy `+`/`*` quantifiers are implemented by maximal munch;
where the regex engine could backtrack out of a greedy run, the run's
character class never contains the character required next (digits or
`[a-zA-Z0-9_-]` followed by `:`; spaces followed by `-`; etc.), so maximal
munch plus a literal test is equivalent — except in the one genuinely
backtracking pattern (`[a-zA-Z0-9_-]+\s*-\s*`, regexes 5/6), where the
largest feasible split, i.e. the last `-` of the run, is taken, matching
the engine's greedy preference.  An optional trailing group
`(<!--.*-->)?` captures iff the comment opener occurs at exactly the
position reached (lazy `.*?` never grows past an already successful
empty match, and everything after it is optional). -/

/-- The shared regex prefix `^\s*-\s*\[([x\s])\]\s*`: returns the status
character and the rest of the line after the bracket and spaces. -/
def parseCheckbox (line : List Char) : Option (Char × List Char) :=
  match line.dropWhile pySpace with
  | '-' :: r1 =>
    match r1.dropWhile pySpace with
    | '[' :: c :: ']' :: r3 =>
      if c = 'x' || pySpace c then some (c, r3.dropWhile pySpace) else none
    | _ => none
  | _ => none

/-- Longest prefix of `cs` that ends with `-->` (the greedy `.*` of
`<!--.*-->` runs to the last closer), or `none` when `-->` does not occur. -/
def takeThroughLastCloser (cs : List Char) : Option (List Char) :=
  match cs with
  | [] => none
  | c :: rest =>
    match takeThroughLastCloser rest with
    | some t => some (c :: t)
    | none =>
      if "-->".data.isPrefixOf (c :: rest) then some "-->".data else none

/-- The optional metadata group `(<!--.*-->)?` evaluated at a position:
captures the comment iff the opener starts here and a closer follows. -/
def matchCommentOpt (cs : List Char) : Option (List Char) :=
  if "<!--".data.isPrefixOf cs then
    match takeThroughLastCloser (cs.drop 4) with
    | some t => some ("<!--".data ++ t)
    | none => none
  else none

/-- Splits a list at the last occurrence of a character:
`splitAtLastChar ch cs = some (pre, post)` with `cs = pre ++ ch :: post`
and `ch ∉ post`. -/
def splitAtLastChar (ch : Char) (cs : List Char) : Option (List Char × List Char) :=
  match cs with
  | [] => none
  | c :: rest =>
    match splitAtLastChar ch rest with
    | some (pre, post) => some (c :: pre, post)
    | none => if c = ch then some ([], rest) else none

/-- The suffix after the first occurrence of `pat`, or `none` when `pat`
does not occur (the mandatory lazy bridge `.*?pat`). -/
def dropToAfterFirst (pat : List Char) : List Char → Option (List Char)
  | [] => if pat.isEmpty then some [] else none
  | c :: rest =>
    if pat.isPrefixOf (c :: rest) then some ((c :: rest).drop pat.length)
    else dropToAfterFirst pat rest

/-- Regex 1 tail: `\*\*(T[0-9]+):.*?\*\*\s*(<!--.*-->)?`. -/
def matchTail1 (r : List Char) : Option (List Char × Option (List Char)) :=
  if "**".data.isPrefixOf r then
    match r.drop 2 with
    | c :: r2 =>
      if c = 'T' then
        let ds := r2.takeWhile Char.isDigit
        if ds = [] then none
        else
          match r2.dropWhile Char.isDigit with
          | c' :: r4 =>
            if c' = ':' then
              match dropToAfterFirst "**".data r4 with
              | some r5 => some ('T' :: ds, matchCommentOpt (r5.dropWhile pySpace))
              | none => none
            else none
          | [] => none
      else none
    | [] => none
  else none

/-- Regex 2 tail: `\*\*([a-zA-Z0-9_-]+):.*?\*\*\s*(<!--.*-->)?`. -/
def matchTail2 (r : List Char) : Option (List Char × Option (List Char)) :=
  if "**".data.isPrefixOf r then
    let r1 := r.drop 2
    let run := r1.takeWhile idClassChar
    if run = [] then none
    else
      match r1.dropWhile idClassChar with
      | c' :: r4 =>
        if c' = ':' then
          match dropToAfterFirst "**".data r4 with
          | some r5 => some (run, matchCommentOpt (r5.dropWhile pySpace))
          | none => none
        else none
      | [] => none
  else none

/-- Regex 3 tail: `(T[0-9]+):.*?\s*(<!--.*-->)?`. -/
def matchTail3 (r : List Char) : Option (List Char × Option (List Char)) :=
  match r with
  | c :: r2 =>
    if c = 'T' then
      let ds := r2.takeWhile Char.isDigit
      if ds = [] then none
      else
        match r2.dropWhile Char.isDigit with
        | c' :: r4 =>
          if c' = ':' then some ('T' :: ds, matchCommentOpt (r4.dropWhile pySpace))
          else none
        | [] => none
    else none
  | [] => none

/-- Regex 4 tail: `([a-zA-Z0-9_-]+):.*?\s*(<!--.*-->)?`. -/
def matchTail4 (r : List Char) : Option (List Char × Option (List Char)) :=
  let run := r.takeWhile idClassChar
  if run = [] then none
  else
    match r.dropWhile idClassChar with
    | c' :: r4 =>
      if c' = ':' then some (run, matchCommentOpt (r4.dropWhile pySpace))
      else none
    | [] => none

/-- Regex 5 tail: `(T[0-9]+)\s*-\s*.*?\s*(<!--.*-->)?`. -/
def matchTail5 (r : List Char) : Option (List Char × Option (List Char)) :=
  match r with
  | c :: r2 =>
    if c = 'T' then
      let ds := r2.takeWhile Char.isDigit
      if ds = [] then none
      else
        match (r2.dropWhile Char.isDigit).dropWhile pySpace with
        | c' :: r5 =>
          if c' = '-' then some ('T' :: ds, matchCommentOpt (r5.dropWhile pySpace))
          else none
        | [] => none
    else none
  | [] => none

/-- Regex 6 tail: `([a-zA-Z0-9_-]+)\s*-\s*.*?\s*(<!--.*-->)?`; the one
pattern whose greedy run genuinely backtracks: when no `-` follows the
maximal run (after spaces), the engine retries at the run's own dashes
from the right, so the group becomes the run up to its last `-`
(requiring a non-empty group). -/
def matchTail6 (r : List Char) : Option (List Char × Option (List Char)) :=
  let run := r.takeWhile idClassChar
  let after := r.dropWhile idClassChar
  if run = [] then none
  else
    let backtrack :=
      match splitAtLastChar '-' run with
      | some (pre, post) =>
        if pre = [] then none
        else some (pre, matchCommentOpt ((post ++ after).dropWhile pySpace))
      | none => none
    match after.dropWhile pySpace with
    | c' :: r5 =>
      if c' = '-' then some (run, matchCommentOpt (r5.dropWhile pySpace))
      else backtrack
    | [] => backtrack

/-- Regex 7 tail: `(T[0-9]+)\s+.*?\s*(<!--.*-->)?`. -/
def matchTail7 (r : List Char) : Option (List Char × Option (List Char)) :=
  match r with
  | c :: r2 =>
    if c = 'T' then
      let ds := r2.takeWhile Char.isDigit
      if ds = [] then none
      else
        match r2.dropWhile Char.isDigit with
        | c' :: r3 =>
          if pySpace c' then
            some ('T' :: ds, matchCommentOpt (r3.dropWhile pySpace))
          else none
        | [] => none
    else none
  | [] => none

/-- Regex 8 tail: `([a-zA-Z0-9_-]+)\s+.*?\s*(<!--.*-->)?`. -/
def matchTail8 (r : List Char) : Option (List Char × Option (List Char)) :=
  let run := r.takeWhile idClassChar
  if run = [] then none
  else
    match r.dropWhile idClassChar with
    | c :: r3 =>
      if pySpace c then some (run, matchCommentOpt (r3.dropWhile pySpace))
      else none
    | [] => none

/-- Regex 9 tail: `([a-zA-Z0-9_-]+)\s*(<!--.*-->)?`. -/
def matchTail9 (r : List Char) : Option (List Char × Option (List Char)) :=
  let run := r.takeWhile idClassChar
  if run = [] then none
  else some (run, matchCommentOpt ((r.dropWhile idClassChar).dropWhile pySpace))

/-- The ordered regex cascade of `_parse_plan_markdown`: first match wins.
Returns (status character, task id, optional metadata comment). -/
def matchTaskLine (line : List Char) : Option (Char × List Char × Option (List Char)) :=
  match parseCheckbox line with
  | none => none
  | some (st, r) =>
    match matchTail1 r <|> matchTail2 r <|> matchTail3 r <|> matchTail4 r <|>
        matchTail5 r <|> matchTail6 r <|> matchTail7 r <|> matchTail8 r <|>
        matchTail9 r with
    | some (taskId, comment) => some (st, taskId, comment)
    | none => none

/-- `desc_re = ^\s*-\s*description:\s*(.*)`. -/
def matchDescLine (line : List Char) : Option (List Char) :=
  match line.dropWhile pySpace with
  | '-' :: r1 =>
    let r2 := r1.dropWhile pySpace
    if "description:".data.isPrefixOf r2 then
      some ((r2.drop 12).dropWhile pySpace)
    else none
  | _ => none

/-- `depends_re = ^\s*-\s*depends:\s*\[(.*)\]` (greedy `.*` runs to the
last `]` of the line). -/
def matchDependsLine (line : List Char) : Option (List Char) :=
  match line.dropWhile pySpace with
  | '-' :: r1 =>
    let r2 := r1.dropWhile pySpace
    if "depends:".data.isPrefixOf r2 then
      match (r2.drop 8).dropWhile pySpace with
      | '[' :: r3 =>
        match splitAtLastChar ']' r3 with
        | some (pre, _) => some pre
        | none => none
      | _ => none
    else none
  | _ => none

/-! ### Notes extraction: `re.search(r"notes:\s*(.*?)\s*;", comment)` -/

/-- Does a (possibly empty) run of spaces followed by `;` start here?
(the trailing `\s*;` of the notes pattern tried at one position). -/
def spacesThenSemi (cs : List Char) : Bool :=
  match cs.dropWhile pySpace with
  | c :: _ => c = ';'
  | [] => false

/-- The lazy group `(.*?)\s*;`: the shortest content after which spaces
and a semicolon follow. -/
def notesBody (cs : List Char) : Option (List Char) :=
  match cs with
  | [] => none
  | c :: rest =>
    if spacesThenSemi (c :: rest) then some []
    else
      match notesBody rest with
      | some t => some (c :: t)
      | none => none

/-- The notes pattern matched at one position (after the literal
`notes:`): leading `\s*` then the lazy body. -/
def matchNotesAt (cs : List Char) : Option (List Char) :=
  notesBody (cs.dropWhile pySpace)

/-- `re.search` of the notes pattern: leftmost occurrence of `notes:`
whose continuation matches. -/
def findNotes : List Char → Option (List Char)
  | [] => none
  | c :: rest =>
    if "notes:".data.isPrefixOf (c :: rest) then
      match matchNotesAt ((c :: rest).drop 6) with
      | some g => some g
      | none => findNotes rest
    else findNotes rest

/-! ### The parser fold (`PlanManager._parse_plan_markdown`) -/

/-- The `current_task_data` dict while a task header is open. -/
structure CurData where
  id : List Char
  status : List Char
  raw_lines : List (List Char)
  depends_on : List (List Char)
  description : Option (List Char)
  notes : Option (List Char)
  deriving Repr, DecidableEq

/-- Parser state: tasks emitted so far plus the open task, if any. -/
structure ParseState where
  tasks : List Task
  current : Option CurData
  deriving Repr, DecidableEq

/-- The `Task(...)` constructed from the open `current_task_data`. -/
def flushTask (d : CurData) : Task :=
  Task.create d.id (d.description.getD "No description provided.".data)
    d.status d.depends_on d.notes d.raw_lines

/-- `process_previous_task()`: flush the open task (its `id`, coming from
a `+` regex group, is never empty, so the dict truthiness test passes). -/
def flushCurrent (st : ParseState) : ParseState :=
  match st.current with
  | none => st
  | some d => { tasks := st.tasks ++ [flushTask d], current := none }

/-- Processing of one document line in `_parse_plan_markdown`'s loop. -/
def parseLine (st : ParseState) (line : List Char) : ParseState :=
  match matchTaskLine line with
  | some (statusChar, taskId, comment) =>
    let st' := flushCurrent st
    let status := if statusChar = 'x' then "done".data else "todo".data
    let notes := match comment with
      | some c => (findNotes c).map pyStrip
      | none => none
    { st' with
      current := some { id := taskId, status := status, raw_lines := [line],
                        depends_on := [], description := none, notes := notes } }
  | none =>
    match st.current with
    | none => st
    | some d =>
      let d' := { d with raw_lines := d.raw_lines ++ [line] }
      match matchDescLine line with
      | some g => { st with current := some { d' with description := some (pyStrip g) } }
      | none =>
        match matchDependsLine line with
        | some inner =>
          let deps_str := pyStrip inner
          if deps_str = [] then { st with current := some d' }
          else
            { st with current := some { d' with
                depends_on := ((splitOnComma deps_str).map pyStrip).filter
                  (fun x => x ≠ []) } }
        | none => { st with current := some d' }

/-- `PlanManager._parse_plan_markdown`: fold over the lines, then flush. -/
def parsePlanMarkdown (content : List Char) : List Task :=
  (flushCurrent ((splitLines content).foldl parseLine
    { tasks := [], current := none })).tasks

/-! ### The serializer (`PlanManager._serialize_plan_markdown`)

The `updated:` timestamp (`datetime.now(...)`) is an input of the model. -/

/-- The metadata parts emitted for one task (only `done` tasks carry
metadata; empty notes are falsy in `if task.notes:`). -/
def metadataParts (now : List Char) (t : Task) : List (List Char) :=
  if t.status = "done".data then
    ["status: ".data ++ t.status] ++
    (match t.notes with
     | some n => if n = [] then [] else ["notes: ".data ++ n]
     | none => []) ++
    ["updated: ".data ++ now]
  else []

/-- The ` <!-- ...; -->` metadata comment (empty when no parts). -/
def metadataComment (now : List Char) (t : Task) : List Char :=
  let parts := metadataParts now t
  if parts = [] then []
  else " <!-- ".data ++ joinSep "; ".data parts ++ "; -->".data

/-- The checkbox header line `- [c] id<comment>`. -/
def taskHeaderLine (now : List Char) (t : Task) : List Char :=
  "- [".data ++ [if t.status = "done".data then 'x' else ' '] ++ "] ".data ++
    t.id ++ metadataComment now t

/-- The `  - description: ...` line. -/
def descriptionLine (t : Task) : List Char :=
  "  - description: ".data ++ t.description

/-- The `  - depends: [...]` line. -/
def dependsLine (t : Task) : List Char :=
  "  - depends: [".data ++ joinSep ", ".data t.depends_on ++ "]".data

/-- The output lines contributed by one task (trailing blank included). -/
def serializeTaskLines (now : List Char) (t : Task) : List (List Char) :=
  [taskHeaderLine now t, descriptionLine t] ++
    (if t.depends_on = [] then [] else [dependsLine t]) ++ [[]]

/-- `PlanManager._serialize_plan_markdown`: header element (with embedded
newline) followed by each task's lines, joined with `'\n'`. -/
def serializePlanMarkdown (now : List Char) (tasks : List Task) : List Char :=
  joinSep "\n".data
    ("# Migration Plan\n".data :: (tasks.map (serializeTaskLines now)).flatten)

/-! ### `get_next_task` and `update_task_status` -/

/-- The id → task index (`self.task_map`): later insertions win, so a
lookup returns the last parsed task with the given id. -/
def taskMapGet (tasks : List Task) (key : List Char) : Option Task :=
  tasks.reverse.find? (fun t => t.id = key)

/-- One dependency is met when it resolves to a known task with status
`done`; an unknown id is never met. -/
def depMet (tasks : List Task) (depId : List Char) : Bool :=
  match taskMapGet tasks depId with
  | some dep_task => dep_task.status = "done".data
  | none => false

/-- A task eligible for `get_next_task`. -/
def eligibleTask (tasks : List Task) (t : Task) : Bool :=
  t.status = "todo".data && t.depends_on.all (depMet tasks)

/-- `PlanManager.get_next_task`: first `todo` task in document order with
all dependencies `done`. -/
def getNextTask (tasks : List Task) : Option Task :=
  tasks.find? (eligibleTask tasks)

/-- The in-place mutation `task.status = "done"; if notes: task.notes = notes`
(`if notes:` is Python truthiness: `None` and `""` leave notes alone). -/
def setDoneTask (notes : Option (List Char)) (t : Task) : Task :=
  { t with
    status := "done".data
    notes := match notes with
      | some n => if n = [] then t.notes else some n
      | none => t.notes }

/-- Apply `f` to the last list element satisfying `p` (the object aliased
by `task_map`, which was inserted last). -/
def updateLast (p : Task → Bool) (f : Task → Task) : List Task → List Task
  | [] => []
  | t :: rest =>
    if rest.any p then t :: updateLast p f rest
    else if p t then f t :: rest
    else t :: rest

/-- `PlanManager.update_task_status`: returns the new task list and the
file content written (`none` when the update is refused and nothing is
written). -/
def updateTaskStatus (now : List Char) (tasks : List Task)
    (task_id new_status : List Char) (notes : Option (List Char)) :
    List Task × Option (List Char) :=
  match taskMapGet tasks task_id with
  | none => (tasks, none)
  | some _ =>
    if new_status ≠ "done".data then (tasks, none)
    else
      let tasks' := updateLast (fun t => t.id = task_id) (setDoneTask notes) tasks
      (tasks', some (serializePlanMarkdown now tasks'))

/-! ### Well-formed plans

The round-trip property does not hold for arbitrary in-memory task lists
(see the C3 counterexample); it holds for plans whose fields use the
benign surface syntax the serializer itself assumes. -/

/-- A well-formed id character: letter, digit or underscore.  (A dash is
excluded: regexes 5/6 of the cascade split an id at its last dash, as the
repository's own `T00-SETUP` demo shows.) -/
def wfIdChar (c : Char) : Bool :=
  c.isAlpha || c.isDigit || c = '_'

/-- Python line-break characters recognised by `splitlines`. -/
def pyLineBreak (c : Char) : Bool :=
  c = '\n' || c = '\r' || c = '\x0b' || c = '\x0c' ||
  c = '\x1c' || c = '\x1d' || c = '\x1e' || c = '\x85' ||
  c = '\u2028' || c = '\u2029'

/-- Well-formed task id: non-empty, only id characters. -/
def wfId (s : List Char) : Bool :=
  !s.isEmpty && s.all wfIdChar

/-- Well-formed description: single-line and strip-invariant (the parse
stores `group(1).strip()`, so anything else cannot round-trip). -/
def wfDescription (s : List Char) : Bool :=
  s.all (fun c => !pyLineBreak c) && (pyStrip s = s)

/-- Well-formed dependency id: non-empty, strip-invariant, single-line,
free of the list separators `,` and `]`. -/
def wfDep (d : List Char) : Bool :=
  !d.isEmpty && (pyStrip d = d) &&
    d.all (fun c => !pyLineBreak c && c ≠ ',' && c ≠ ']')

/-- Well-formed notes: only on `done` tasks (the serializer emits notes
only there), non-empty (empty notes are falsy), strip-invariant,
single-line, free of `;` (the metadata field separator) and of the
comment closer `-->`. -/
def wfNotes (status : List Char) : Option (List Char) → Bool
  | none => true
  | some n =>
    (status = "done".data : Bool) && !n.isEmpty && (pyStrip n = n) &&
      n.all (fun c => !pyLineBreak c && c ≠ ';') && !containsSub "-->".data n

/-- Well-formed task for the round-trip property. -/
def wfTask (t : Task) : Bool :=
  wfId t.id && wfDescription t.description &&
    (t.status = "todo".data || t.status = "done".data) &&
    t.depends_on.all wfDep && wfNotes t.status t.notes

/-- Well-formed `updated:` timestamp: the characters `datetime.isoformat`
can produce (digits and `-:+.TZ`). -/
def wfNow (now : List Char) : Bool :=
  now.all (fun c => c.isDigit || c = '-' || c = ':' || c = '+' ||
    c = 'T' || c = '.' || c = 'Z')

/-- Well-formed plan: a timestamp and task list the serializer can
round-trip. -/
def wfPlan (now : List Char) (tasks : List Task) : Bool :=
  wfNow now && tasks.all wfTask

/-! ### Character-class facts -/

theorem wfIdChar_facts {c : Char} (h : wfIdChar c = true) :
    pySpace c = false ∧ c ≠ ':' ∧ c ≠ '*' ∧ c ≠ '-' ∧ c ≠ '[' ∧
      idClassChar c = true := by
  refine ⟨?_, ?_, ?_, ?_, ?_, ?_⟩
  · cases hpc : pySpace c
    · rfl
    · exfalso
      simp only [pySpace, Bool.or_eq_true, decide_eq_true_eq] at hpc
      rcases hpc with ((((h2 | h2) | h2) | h2) | h2) | h2 <;>
        exact absurd (h2 ▸ h) (by decide)
  · exact fun hc => absurd (hc ▸ h) (by decide)
  · exact fun hc => absurd (hc ▸ h) (by decide)
  · exact fun hc => absurd (hc ▸ h) (by decide)
  · exact fun hc => absurd (hc ▸ h) (by decide)
  · simp only [wfIdChar, Bool.or_eq_true] at h
    simp only [idClassChar, Bool.or_eq_true]
    rcases h with (h | h) | h <;> simp [h]

theorem digit_idClassChar {c : Char} (h : c.isDigit = true) :
    idClassChar c = true := by
  simp [idClassChar, h]

theorem digit_wfIdChar {c : Char} (h : c.isDigit = true) :
    wfIdChar c = true := by
  simp [wfIdChar, h]

/-! ### `takeWhile`/`dropWhile` over concatenations -/

theorem takeWhile_append_all {p : Char → Bool} {a : List Char}
    (ha : ∀ c ∈ a, p c = true) (b : List Char) :
    (a ++ b).takeWhile p = a ++ b.takeWhile p := by
  induction a with
  | nil => simp
  | cons c a' ih =>
    have hc : p c = true := ha c (by simp)
    simp only [List.cons_append, List.takeWhile_cons, hc, if_true]
    rw [ih (fun x hx => ha x (by simp [hx]))]

theorem dropWhile_append_all {p : Char → Bool} {a : List Char}
    (ha : ∀ c ∈ a, p c = true) (b : List Char) :
    (a ++ b).dropWhile p = b.dropWhile p := by
  induction a with
  | nil => simp
  | cons c a' ih =>
    have hc : p c = true := ha c (by simp)
    simp only [List.cons_append, List.dropWhile_cons, hc, if_true]
    exact ih (fun x hx => ha x (by simp [hx]))

theorem takeWhile_nil_of_head {p : Char → Bool} {b : List Char}
    (hb : ∀ c, b.head? = some c → p c = false) :
    b.takeWhile p = [] := by
  cases b with
  | nil => rfl
  | cons c rest => simp [List.takeWhile_cons, hb c rfl]

theorem dropWhile_id_of_head {p : Char → Bool} {b : List Char}
    (hb : ∀ c, b.head? = some c → p c = false) :
    b.dropWhile p = b := by
  cases b with
  | nil => rfl
  | cons c rest => simp [List.dropWhile_cons, hb c rfl]

/-! ### `pyStrip` facts -/

theorem length_dropWhile_le (p : Char → Bool) (l : List Char) :
    (l.dropWhile p).length ≤ l.length :=
  (List.dropWhile_sublist p).length_le

theorem dropWhile_eq_self_of_length {p : Char → Bool} {l : List Char}
    (h : (l.dropWhile p).length = l.length) : l.dropWhile p = l := by
  cases l with
  | nil => rfl
  | cons c rest =>
    by_cases hc : p c
    · exfalso
      rw [List.dropWhile_cons, if_pos hc] at h
      have hle := length_dropWhile_le p rest
      simp only [List.length_cons] at h
      omega
    · rw [List.dropWhile_cons, if_neg hc]

theorem pyStrip_parts {n : List Char} (h : pyStrip n = n) :
    n.dropWhile pySpace = n ∧ n.reverse.dropWhile pySpace = n.reverse := by
  have hlen := congrArg List.length h
  unfold pyStrip at hlen
  simp only [List.length_reverse] at hlen
  have h1 := length_dropWhile_le pySpace n
  have h2 := length_dropWhile_le pySpace (n.dropWhile pySpace).reverse
  simp only [List.length_reverse] at h2
  have hd1 : (n.dropWhile pySpace).length = n.length := by omega
  have hdrop : n.dropWhile pySpace = n := dropWhile_eq_self_of_length hd1
  refine ⟨hdrop, ?_⟩
  rw [hdrop] at hlen
  exact dropWhile_eq_self_of_length (by rw [List.length_reverse]; omega)

theorem head_not_space_of_dropWhile {b : List Char}
    (hdrop : b.dropWhile pySpace = b) :
    ∀ c, b.head? = some c → pySpace c = false := by
  intro c hc
  cases b with
  | nil => simp at hc
  | cons x rest =>
    have hx : x = c := by simpa using hc
    subst hx
    cases hpc : pySpace x
    · rfl
    · exfalso
      rw [List.dropWhile_cons, if_pos hpc] at hdrop
      have hle := length_dropWhile_le pySpace rest
      have hlen := congrArg List.length hdrop
      simp only [List.length_cons] at hlen
      omega

theorem pyStrip_head_not_space {n : List Char} (h : pyStrip n = n) :
    ∀ c, n.head? = some c → pySpace c = false :=
  head_not_space_of_dropWhile (pyStrip_parts h).1

theorem pyStrip_getLast_not_space {n : List Char} (h : pyStrip n = n) :
    ∀ c, n.getLast? = some c → pySpace c = false := by
  intro c hc
  refine head_not_space_of_dropWhile (pyStrip_parts h).2 c ?_
  rw [List.head?_reverse]
  exact hc

theorem pyStrip_eq_self_of {n : List Char}
    (hh : ∀ c, n.head? = some c → pySpace c = false)
    (hl : ∀ c, n.getLast? = some c → pySpace c = false) :
    pyStrip n = n := by
  unfold pyStrip
  rw [dropWhile_id_of_head hh, dropWhile_id_of_head
    (by intro c hc; exact hl c (by rwa [List.head?_reverse] at hc)),
    List.reverse_reverse]

theorem pyStrip_cons_space {c : Char} (hc : pySpace c = true) (e : List Char) :
    pyStrip (c :: e) = pyStrip e := by
  unfold pyStrip
  rw [List.dropWhile_cons, if_pos hc]

/-! ### Comment capture facts -/

/-- A string that ends with the closer is captured whole (the greedy `.*`
reaches the last `-->`, which here terminates the string). -/
theorem takeThroughLastCloser_append (pre : List Char) :
    takeThroughLastCloser (pre ++ "-->".data) = some (pre ++ "-->".data) := by
  induction pre with
  | nil => decide
  | cons c pre' ih =>
    simp only [List.cons_append, takeThroughLastCloser, List.append_eq, ih]

theorem matchCommentOpt_full (inner : List Char) :
    matchCommentOpt ("<!--".data ++ inner ++ "-->".data) =
      some ("<!--".data ++ inner ++ "-->".data) := by
  unfold matchCommentOpt
  rw [if_pos]
  · rw [List.append_assoc, List.drop_left' (by rfl),
      takeThroughLastCloser_append]
  · exact isPrefixOf_eq_true_iff.mpr ⟨inner ++ "-->".data, by simp⟩

/-! ### Notes extraction facts -/

theorem spacesThenSemi_false {l : List Char} (m : List Char)
    (hx : ∃ x ∈ l, pySpace x = false) (hs : ∀ x ∈ l, x ≠ ';') :
    spacesThenSemi (l ++ m) = false := by
  induction l with
  | nil => simp at hx
  | cons c l' ih =>
    unfold spacesThenSemi
    cases hpc : pySpace c
    · rw [List.cons_append, List.dropWhile_cons, if_neg (by simp [hpc])]
      simp [hs c (by simp)]
    · rw [List.cons_append, List.dropWhile_cons, if_pos (by simp [hpc])]
      rcases hx with ⟨x, hxl, hxs⟩
      rcases List.mem_cons.mp hxl with rfl | hxl'
      · rw [hpc] at hxs; cases hxs
      · have := ih ⟨x, hxl', hxs⟩ (fun y hy => hs y (by simp [hy]))
        unfold spacesThenSemi at this
        exact this

theorem notesBody_exact {n : List Char} (rest : List Char)
    (hsemi : ∀ c ∈ n, c ≠ ';')
    (hlast : ∀ c, n.getLast? = some c → pySpace c = false) :
    notesBody (n ++ ';' :: rest) = some n := by
  induction n with
  | nil =>
    rw [List.nil_append]
    show (if spacesThenSemi (';' :: rest) = true then some [] else _) = _
    rw [if_pos]
    unfold spacesThenSemi
    rw [List.dropWhile_cons, if_neg (by decide)]
    rfl
  | cons c n' ih =>
    have hne : (c :: n') ≠ [] := by simp
    have hwitness : ∃ x ∈ c :: n', pySpace x = false := by
      refine ⟨(c :: n').getLast hne, List.getLast_mem hne, ?_⟩
      exact hlast _ (List.getLast?_eq_getLast _ hne)
    have hfalse : spacesThenSemi ((c :: n') ++ ';' :: rest) = false :=
      spacesThenSemi_false (';' :: rest) hwitness hsemi
    rw [List.cons_append] at hfalse
    rw [List.cons_append]
    show (if spacesThenSemi (c :: (n' ++ ';' :: rest)) = true then some []
      else match notesBody (n' ++ ';' :: rest) with
        | some t => some (c :: t)
        | none => none) = _
    rw [if_neg (by simp [hfalse])]
    have hlast' : ∀ x, n'.getLast? = some x → pySpace x = false := by
      intro x hx
      cases n' with
      | nil => simp at hx
      | cons b t =>
        refine hlast x ?_
        rw [List.getLast?_cons_cons]
        exact hx
    rw [ih (fun x hx => hsemi x (by simp [hx])) hlast']

theorem matchNotesAt_exact {n : List Char} (rest : List Char)
    (hn : n ≠ []) (hstrip : pyStrip n = n)
    (hsemi : ∀ c ∈ n, c ≠ ';') :
    matchNotesAt (' ' :: (n ++ ';' :: rest)) = some n := by
  unfold matchNotesAt
  rw [List.dropWhile_cons, if_pos (by decide)]
  have hh : ∀ c, (n ++ ';' :: rest).head? = some c → pySpace c = false := by
    intro c hc
    cases n with
    | nil => exact absurd rfl hn
    | cons a t =>
      have : a = c := by simpa using hc
      subst this
      exact pyStrip_head_not_space hstrip a rfl
  rw [dropWhile_id_of_head hh]
  exact notesBody_exact rest hsemi (pyStrip_getLast_not_space hstrip)

/-! ### The regex cascade on serialized header lines

Throughout, `id` is a well-formed task id and `w` the metadata comment
(empty for `todo` tasks, ` <!-- ... -->` for `done` tasks). -/

theorem head_dropWhile_false {p : Char → Bool} {l : List Char} :
    ∀ x, (l.dropWhile p).head? = some x → p x = false := by
  intro x hx
  have h := List.head?_dropWhile_not p l
  rw [hx] at h
  exact h

theorem isPrefixOf_false_head {a b : Char} (as bs : List Char) (h : b ≠ a) :
    (a :: as).isPrefixOf (b :: bs) = false := by
  simp [List.isPrefixOf, Ne.symm h]

theorem splitAtLastChar_none {ch : Char} {l : List Char}
    (h : ∀ c ∈ l, c ≠ ch) : splitAtLastChar ch l = none := by
  induction l with
  | nil => rfl
  | cons c rest ih =>
    unfold splitAtLastChar
    rw [ih (fun x hx => h x (by simp [hx]))]
    rw [if_neg (h c (by simp))]

theorem splitAtLastChar_append {ch : Char} {l : List Char}
    (h : ∀ c ∈ l, c ≠ ch) : splitAtLastChar ch (l ++ [ch]) = some (l, []) := by
  induction l with
  | nil =>
    show (match splitAtLastChar ch [] with
      | some (pre, post) => some (ch :: pre, post)
      | none => if ch = ch then some ([], ([] : List Char)) else none) =
        some ([], [])
    rw [show splitAtLastChar ch [] = none from rfl, if_pos rfl]
  | cons c rest ih =>
    have ih' := ih (fun x hx => h x (by simp [hx]))
    show (match splitAtLastChar ch (rest ++ [ch]) with
      | some (pre, post) => some (c :: pre, post)
      | none => if c = ch then some ([], rest ++ [ch]) else none) =
        some (c :: rest, [])
    rw [ih']

/-- Shape hypothesis for the metadata comment: absent, or a space
followed by the comment opener. -/
def McShape (w : List Char) : Prop :=
  w = [] ∨ ∃ u, w = ' ' :: '<' :: u

theorem mc_head_space {w : List Char} (hmc : McShape w) :
    ∀ x, w.head? = some x → x = ' ' := by
  intro x hx
  rcases hmc with rfl | ⟨u, rfl⟩
  · simp at hx
  · simpa using hx.symm

theorem idClass_run {id w : List Char}
    (hidc : ∀ x ∈ id, wfIdChar x = true) (hmc : McShape w) :
    (id ++ w).takeWhile idClassChar = id ∧
      (id ++ w).dropWhile idClassChar = w := by
  have hall : ∀ x ∈ id, idClassChar x = true :=
    fun x hx => (wfIdChar_facts (hidc x hx)).2.2.2.2.2
  have hmchead : ∀ x, w.head? = some x → idClassChar x = false := by
    intro x hx
    rw [mc_head_space hmc x hx]
    decide
  constructor
  · rw [takeWhile_append_all hall, takeWhile_nil_of_head hmchead,
      List.append_nil]
  · rw [dropWhile_append_all hall, dropWhile_id_of_head hmchead]

theorem digit_run {id' w : List Char}
    (_hidc : ∀ x ∈ id', wfIdChar x = true) (hmc : McShape w) :
    (id' ++ w).takeWhile Char.isDigit = id'.takeWhile Char.isDigit ∧
      (id' ++ w).dropWhile Char.isDigit =
        (if id'.dropWhile Char.isDigit = [] then w
         else id'.dropWhile Char.isDigit ++ w) := by
  have hmchead : ∀ x, w.head? = some x → Char.isDigit x = false := by
    intro x hx
    rw [mc_head_space hmc x hx]
    decide
  have htake : ∀ x ∈ id'.takeWhile Char.isDigit, Char.isDigit x = true :=
    fun x hx => List.mem_takeWhile_imp hx
  have hsplit := List.takeWhile_append_dropWhile (p := Char.isDigit) (l := id')
  by_cases hrem : id'.dropWhile Char.isDigit = []
  · have hball : ∀ x ∈ id', Char.isDigit x = true := by
      intro x hx
      rw [← hsplit, hrem, List.append_nil] at hx
      exact htake x hx
    rw [if_pos hrem]
    constructor
    · rw [takeWhile_append_all hball, takeWhile_nil_of_head hmchead,
        List.append_nil, List.takeWhile_eq_self_iff.mpr hball]
    · rw [dropWhile_append_all hball, dropWhile_id_of_head hmchead]
  · rw [if_neg hrem]
    have hheadrm : ∀ x, (id'.dropWhile Char.isDigit ++ w).head? = some x →
        Char.isDigit x = false := by
      intro x hx
      rcases hx2 : id'.dropWhile Char.isDigit with _ | ⟨y, rest⟩
      · rw [hx2] at hrem; exact absurd rfl hrem
      · rw [hx2] at hx
        simp only [List.cons_append, List.head?_cons, Option.some.injEq] at hx
        subst hx
        exact head_dropWhile_false y (by rw [hx2]; rfl)
    constructor
    · conv_lhs => rw [← hsplit]
      rw [List.append_assoc, takeWhile_append_all htake,
        takeWhile_nil_of_head hheadrm, List.append_nil]
    · conv_lhs => rw [← hsplit]
      rw [List.append_assoc, dropWhile_append_all htake,
        dropWhile_id_of_head hheadrm]

theorem matchTail1_header {id w : List Char} (hidne : id ≠ [])
    (hidc : ∀ x ∈ id, wfIdChar x = true) :
    matchTail1 (id ++ w) = none := by
  rcases id with _ | ⟨x, id0⟩
  · exact absurd rfl hidne
  have hx : x ≠ '*' := (wfIdChar_facts (hidc x (by simp))).2.2.1
  have hpf : "**".data.isPrefixOf (x :: (id0 ++ w)) = false :=
    isPrefixOf_false_head _ _ hx
  simp only [matchTail1, List.cons_append, hpf, Bool.false_eq_true, if_false]

theorem matchTail2_header {id w : List Char} (hidne : id ≠ [])
    (hidc : ∀ x ∈ id, wfIdChar x = true) :
    matchTail2 (id ++ w) = none := by
  rcases id with _ | ⟨x, id0⟩
  · exact absurd rfl hidne
  have hx : x ≠ '*' := (wfIdChar_facts (hidc x (by simp))).2.2.1
  have hpf : "**".data.isPrefixOf (x :: (id0 ++ w)) = false :=
    isPrefixOf_false_head _ _ hx
  simp only [matchTail2, List.cons_append, hpf, Bool.false_eq_true, if_false]

theorem matchTail3_header {id w : List Char} (hidne : id ≠ [])
    (hidc : ∀ x ∈ id, wfIdChar x = true) (hmc : McShape w) :
    matchTail3 (id ++ w) = none := by
  rcases id with _ | ⟨x, id0⟩
  · exact absurd rfl hidne
  rw [List.cons_append]
  by_cases hT : x = 'T'
  · subst hT
    have hid0 : ∀ y ∈ id0, wfIdChar y = true :=
      fun y hy => hidc y (by simp [hy])
    have hdig := digit_run hid0 hmc
    simp only [matchTail3, if_true]
    rw [hdig.1, hdig.2]
    by_cases hds : id0.takeWhile Char.isDigit = []
    · rw [if_pos hds]
    · rw [if_neg hds]
      by_cases hrem : id0.dropWhile Char.isDigit = []
      · rw [if_pos hrem]
        rcases hmc with rfl | ⟨u, rfl⟩
        · rfl
        · show (if (' ' : Char) = ':' then _ else none) = none
          rw [if_neg (by decide)]
      · rw [if_neg hrem]
        rcases hy : id0.dropWhile Char.isDigit with _ | ⟨y, rest⟩
        · exact absurd hy hrem
        have hymem : y ∈ id0 := by
          have hmem : y ∈ id0.dropWhile Char.isDigit := by rw [hy]; simp
          exact (List.dropWhile_sublist Char.isDigit).subset hmem
        have hyc : y ≠ ':' := (wfIdChar_facts (hid0 y hymem)).2.1
        show (if y = ':' then _ else none) = none
        rw [if_neg hyc]
  · simp only [matchTail3]
    rw [if_neg hT]

theorem matchTail4_header {id w : List Char} (hidne : id ≠ [])
    (hidc : ∀ x ∈ id, wfIdChar x = true) (hmc : McShape w) :
    matchTail4 (id ++ w) = none := by
  have hrun := idClass_run hidc hmc
  simp only [matchTail4, hrun.1, hrun.2]
  rw [if_neg hidne]
  rcases hmc with rfl | ⟨u, rfl⟩
  · rfl
  · show (if (' ' : Char) = ':' then _ else none) = none
    rw [if_neg (by decide)]

theorem matchTail5_header {id w : List Char} (hidne : id ≠ [])
    (hidc : ∀ x ∈ id, wfIdChar x = true) (hmc : McShape w) :
    matchTail5 (id ++ w) = none := by
  rcases id with _ | ⟨x, id0⟩
  · exact absurd rfl hidne
  rw [List.cons_append]
  by_cases hT : x = 'T'
  · subst hT
    have hid0 : ∀ y ∈ id0, wfIdChar y = true :=
      fun y hy => hidc y (by simp [hy])
    have hdig := digit_run hid0 hmc
    simp only [matchTail5, if_true]
    rw [hdig.1, hdig.2]
    by_cases hds : id0.takeWhile Char.isDigit = []
    · rw [if_pos hds]
    · rw [if_neg hds]
      by_cases hrem : id0.dropWhile Char.isDigit = []
      · rw [if_pos hrem]
        rcases hmc with rfl | ⟨u, rfl⟩
        · rfl
        · rw [List.dropWhile_cons, if_pos (by decide),
            dropWhile_id_of_head (by intro c hc; simp at hc; subst hc; decide)]
          show (if ('<' : Char) = '-' then _ else none) = none
          rw [if_neg (by decide)]
      · rw [if_neg hrem]
        rcases hy : id0.dropWhile Char.isDigit with _ | ⟨y, rest⟩
        · exact absurd hy hrem
        have hymem : y ∈ id0 := by
          have hmem : y ∈ id0.dropWhile Char.isDigit := by rw [hy]; simp
          exact (List.dropWhile_sublist Char.isDigit).subset hmem
        have hyfacts := wfIdChar_facts (hid0 y hymem)
        rw [List.cons_append, List.dropWhile_cons,
          if_neg (by simp [hyfacts.1])]
        show (if y = '-' then _ else none) = none
        rw [if_neg hyfacts.2.2.2.1]
  · simp only [matchTail5]
    rw [if_neg hT]

theorem matchTail6_header {id w : List Char} (hidne : id ≠ [])
    (hidc : ∀ x ∈ id, wfIdChar x = true) (hmc : McShape w) :
    matchTail6 (id ++ w) = none := by
  have hrun := idClass_run hidc hmc
  have hsplit : splitAtLastChar '-' id =
      none := splitAtLastChar_none
    (fun c hc => (wfIdChar_facts (hidc c hc)).2.2.2.1)
  simp only [matchTail6, hrun.1, hrun.2]
  rw [if_neg hidne]
  rcases hmc with rfl | ⟨u, rfl⟩
  · simp only [List.dropWhile_nil, hsplit]
  · rw [List.dropWhile_cons, if_pos (by decide),
      dropWhile_id_of_head (by intro c hc; simp at hc; subst hc; decide)]
    show (if ('<' : Char) = '-' then _
      else match splitAtLastChar '-' id with
        | some (pre, post) => _
        | none => none) = none
    rw [if_neg (by decide), hsplit]

theorem dropWhile_eq_nil_of_all {p : Char → Bool} {l : List Char}
    (h : ∀ x ∈ l, p x = true) : l.dropWhile p = [] := by
  induction l with
  | nil => rfl
  | cons c rest ih =>
    rw [List.dropWhile_cons, if_pos (h c (by simp))]
    exact ih (fun x hx => h x (by simp [hx]))

theorem matchTail7_T_fail {id0 w : List Char}
    (hid0 : ∀ y ∈ id0, wfIdChar y = true) (hmc : McShape w)
    (hcase : id0.takeWhile Char.isDigit = [] ∨
      id0.dropWhile Char.isDigit ≠ [] ∨ w = []) :
    matchTail7 (('T' :: id0) ++ w) = none := by
  rw [List.cons_append]
  have hdig := digit_run hid0 hmc
  simp only [matchTail7, if_true]
  rw [hdig.1, hdig.2]
  by_cases hds : id0.takeWhile Char.isDigit = []
  · rw [if_pos hds]
  · rw [if_neg hds]
    by_cases hrem : id0.dropWhile Char.isDigit = []
    · rw [if_pos hrem]
      have hmcnil : w = [] := by
        rcases hcase with h | h | h
        · exact absurd h hds
        · exact absurd hrem h
        · exact h
      subst hmcnil
      rfl
    · rw [if_neg hrem]
      rcases hy : id0.dropWhile Char.isDigit with _ | ⟨y, rest⟩
      · exact absurd hy hrem
      have hymem : y ∈ id0 := by
        have hmem : y ∈ id0.dropWhile Char.isDigit := by rw [hy]; simp
        exact (List.dropWhile_sublist Char.isDigit).subset hmem
      show (if pySpace y = true then _ else none) = none
      rw [if_neg (by simp [(wfIdChar_facts (hid0 y hymem)).1])]

theorem matchTail7_notT {x : Char} {r2 : List Char} (hx : x ≠ 'T') :
    matchTail7 (x :: r2) = none := by
  simp only [matchTail7]
  rw [if_neg hx]

theorem matchTail7_TNum {id0 u : List Char}
    (hall : ∀ y ∈ id0, Char.isDigit y = true) (hne : id0 ≠ [])
    (hshape : ∃ u', u = '<' :: u') :
    matchTail7 (('T' :: id0) ++ (' ' :: u)) =
      some ('T' :: id0, matchCommentOpt (u.dropWhile pySpace)) := by
  rcases hshape with ⟨u', rfl⟩
  have hid0 : ∀ y ∈ id0, wfIdChar y = true := fun y hy => digit_wfIdChar (hall y hy)
  have hdig := digit_run hid0 (Or.inr ⟨u', rfl⟩)
  have hrem : id0.dropWhile Char.isDigit = [] := dropWhile_eq_nil_of_all hall
  have htak : id0.takeWhile Char.isDigit = id0 :=
    List.takeWhile_eq_self_iff.mpr hall
  rw [List.cons_append]
  simp only [matchTail7, if_true]
  rw [hdig.1, hdig.2, if_pos hrem, htak, if_neg hne]
  show (if pySpace ' ' = true then _ else none) = _
  rw [if_pos (by decide)]

theorem matchTail7_todo {id : List Char} (hidne : id ≠ [])
    (hidc : ∀ x ∈ id, wfIdChar x = true) : matchTail7 id = none := by
  rcases id with _ | ⟨x, id0⟩
  · exact absurd rfl hidne
  by_cases hT : x = 'T'
  · subst hT
    have hid0 : ∀ y ∈ id0, wfIdChar y = true := fun y hy => hidc y (by simp [hy])
    have h2 := matchTail7_T_fail (w := []) hid0 (Or.inl rfl)
      (Or.inr (Or.inr rfl))
    rwa [List.append_nil] at h2
  · exact matchTail7_notT hT

theorem matchTail8_done {id u : List Char} (hidne : id ≠ [])
    (hidc : ∀ x ∈ id, wfIdChar x = true) (hshape : ∃ u', u = '<' :: u') :
    matchTail8 (id ++ (' ' :: u)) =
      some (id, matchCommentOpt (u.dropWhile pySpace)) := by
  rcases hshape with ⟨u', rfl⟩
  have hrun := idClass_run hidc (Or.inr ⟨u', rfl⟩)
  simp only [matchTail8]
  rw [hrun.1, hrun.2, if_neg hidne]
  show (if pySpace ' ' = true then _ else none) = _
  rw [if_pos (by decide)]

theorem matchTail8_todo {id : List Char} (hidne : id ≠ [])
    (hidc : ∀ x ∈ id, wfIdChar x = true) : matchTail8 id = none := by
  have hrun := idClass_run hidc (w := []) (Or.inl rfl)
  rw [List.append_nil] at hrun
  simp only [matchTail8]
  rw [hrun.1, hrun.2, if_neg hidne]

theorem matchTail9_todo {id : List Char} (hidne : id ≠ [])
    (hidc : ∀ x ∈ id, wfIdChar x = true) :
    matchTail9 id = some (id, none) := by
  have hrun := idClass_run hidc (w := []) (Or.inl rfl)
  rw [List.append_nil] at hrun
  simp only [matchTail9]
  rw [hrun.1, hrun.2, if_neg hidne]
  rfl

theorem parseCheckbox_hdr (c : Char) (idc w : List Char)
    (hc : c = 'x' ∨ c = ' ')
    (hhead : ∀ x, (idc ++ w).head? = some x → pySpace x = false) :
    parseCheckbox ("- [".data ++ ([c] ++ ("] ".data ++ (idc ++ w)))) =
      some (c, idc ++ w) := by
  show parseCheckbox ('-' :: ' ' :: '[' :: c :: ']' :: ' ' :: (idc ++ w)) = _
  unfold parseCheckbox
  rw [List.dropWhile_cons, if_neg (by decide)]
  show (match (' ' :: '[' :: c :: ']' :: ' ' :: (idc ++ w)).dropWhile pySpace
      with
    | '[' :: c :: ']' :: r3 =>
      if c = 'x' || pySpace c then some (c, r3.dropWhile pySpace) else none
    | _ => none) = _
  rw [List.dropWhile_cons, if_pos (by decide), List.dropWhile_cons,
    if_neg (by decide)]
  show (if c = 'x' || pySpace c then
      some (c, (' ' :: (idc ++ w)).dropWhile pySpace) else none) = _
  rw [if_pos (by rcases hc with rfl | rfl <;> decide),
    List.dropWhile_cons, if_pos (by decide), dropWhile_id_of_head hhead]

/-- The full regex cascade on a serialized `todo` header rest (no
metadata comment). -/
theorem cascade_todo {id : List Char} (hidne : id ≠ [])
    (hidc : ∀ x ∈ id, wfIdChar x = true) :
    (matchTail1 id <|> matchTail2 id <|> matchTail3 id <|> matchTail4 id <|>
      matchTail5 id <|> matchTail6 id <|> matchTail7 id <|> matchTail8 id <|>
      matchTail9 id) = some (id, none) := by
  have h1 := matchTail1_header (w := []) hidne hidc
  have h2 := matchTail2_header (w := []) hidne hidc
  have h3 := matchTail3_header (w := []) hidne hidc (Or.inl rfl)
  have h4 := matchTail4_header (w := []) hidne hidc (Or.inl rfl)
  have h5 := matchTail5_header (w := []) hidne hidc (Or.inl rfl)
  have h6 := matchTail6_header (w := []) hidne hidc (Or.inl rfl)
  rw [List.append_nil] at h1 h2 h3 h4 h5 h6
  rw [h1, h2, h3, h4, h5, h6, matchTail7_todo hidne hidc,
    matchTail8_todo hidne hidc, matchTail9_todo hidne hidc]
  rfl

/-- The full regex cascade on a serialized `done` header rest
(` <!--inner-->` metadata comment). -/
theorem cascade_done {id inner : List Char} (hidne : id ≠ [])
    (hidc : ∀ x ∈ id, wfIdChar x = true) :
    (matchTail1 (id ++ ' ' :: ("<!--".data ++ inner ++ "-->".data)) <|>
      matchTail2 (id ++ ' ' :: ("<!--".data ++ inner ++ "-->".data)) <|>
      matchTail3 (id ++ ' ' :: ("<!--".data ++ inner ++ "-->".data)) <|>
      matchTail4 (id ++ ' ' :: ("<!--".data ++ inner ++ "-->".data)) <|>
      matchTail5 (id ++ ' ' :: ("<!--".data ++ inner ++ "-->".data)) <|>
      matchTail6 (id ++ ' ' :: ("<!--".data ++ inner ++ "-->".data)) <|>
      matchTail7 (id ++ ' ' :: ("<!--".data ++ inner ++ "-->".data)) <|>
      matchTail8 (id ++ ' ' :: ("<!--".data ++ inner ++ "-->".data)) <|>
      matchTail9 (id ++ ' ' :: ("<!--".data ++ inner ++ "-->".data))) =
      some (id, some ("<!--".data ++ inner ++ "-->".data)) := by
  set cmt := "<!--".data ++ inner ++ "-->".data with hcmt
  have hshape : ∃ u', cmt = '<' :: u' := ⟨_, by rw [hcmt]; rfl⟩
  have hmc : McShape (' ' :: cmt) := Or.inr ⟨_, by rw [hcmt]; rfl⟩
  have hdropc : cmt.dropWhile pySpace = cmt := by
    rcases hshape with ⟨u', hu⟩
    rw [hu, List.dropWhile_cons, if_neg (by decide)]
  have hfull : matchCommentOpt (cmt.dropWhile pySpace) = some cmt := by
    rw [hdropc, hcmt, matchCommentOpt_full]
  have h1 := matchTail1_header (w := ' ' :: cmt) hidne hidc
  have h2 := matchTail2_header (w := ' ' :: cmt) hidne hidc
  have h3 := matchTail3_header (w := ' ' :: cmt) hidne hidc hmc
  have h4 := matchTail4_header (w := ' ' :: cmt) hidne hidc hmc
  have h5 := matchTail5_header (w := ' ' :: cmt) hidne hidc hmc
  have h6 := matchTail6_header (w := ' ' :: cmt) hidne hidc hmc
  rw [h1, h2, h3, h4, h5, h6]
  rcases id with _ | ⟨x, id0⟩
  · exact absurd rfl hidne
  have hid0 : ∀ y ∈ id0, wfIdChar y = true := fun y hy => hidc y (by simp [hy])
  by_cases hT : x = 'T'
  · subst hT
    by_cases hnum : id0 ≠ [] ∧ ∀ y ∈ id0, Char.isDigit y = true
    · have h7 := matchTail7_TNum (u := cmt) hnum.2 hnum.1 hshape
      rw [show ('T' :: id0) ++ (' ' :: cmt) = 'T' :: id0 ++ ' ' :: cmt
        from rfl] at h7
      rw [h7, hfull]
      rfl
    · have hcase : id0.takeWhile Char.isDigit = [] ∨
          id0.dropWhile Char.isDigit ≠ [] ∨ (' ' :: cmt) = [] := by
        by_cases hrem : id0.dropWhile Char.isDigit = []
        · left
          by_cases hds : id0.takeWhile Char.isDigit = []
          · exact hds
          · exfalso
            have htak := List.takeWhile_append_dropWhile
              (p := Char.isDigit) (l := id0)
            rw [hrem, List.append_nil] at htak
            refine hnum ⟨?_, ?_⟩
            · intro h0
              exact hds (by rw [h0]; simp)
            · intro y hy
              rw [← htak] at hy
              exact List.mem_takeWhile_imp hy
        · exact Or.inr (Or.inl hrem)
      have h7 := matchTail7_T_fail (w := ' ' :: cmt) hid0 hmc hcase
      rw [h7]
      have h8 := matchTail8_done (u := cmt) hidne hidc hshape
      rw [h8, hfull]
      rfl
  · have h7 : matchTail7 (x :: id0 ++ ' ' :: cmt) = none := matchTail7_notT hT
    rw [h7]
    have h8 := matchTail8_done (u := cmt) hidne hidc hshape
    rw [h8, hfull]
    rfl

theorem matchTaskLine_eq {line : List Char} {c : Char} {r : List Char}
    (hcb : parseCheckbox line = some (c, r)) :
    matchTaskLine line =
      (match matchTail1 r <|> matchTail2 r <|> matchTail3 r <|> matchTail4 r <|>
          matchTail5 r <|> matchTail6 r <|> matchTail7 r <|> matchTail8 r <|>
          matchTail9 r with
        | some (taskId, comment) => some (c, taskId, comment)
        | none => none) := by
  unfold matchTaskLine
  rw [hcb]

/-- The inner text of the serialized metadata comment. -/
def commentInner (now : List Char) (t : Task) : List Char :=
  (' ' :: joinSep "; ".data (metadataParts now t)) ++ "; ".data

/-- The metadata comment of a `done` task is a space followed by a
well-delimited HTML comment. -/
theorem metadataComment_done (now : List Char) (t : Task)
    (hdone : t.status = "done".data) :
    metadataComment now t =
      ' ' :: ("<!--".data ++ commentInner now t ++ "-->".data) := by
  unfold metadataComment commentInner
  have hne : metadataParts now t ≠ [] := by
    unfold metadataParts
    rw [if_pos hdone]
    rcases t.notes with _ | n <;> simp
  rw [if_neg hne]
  simp

/-- The regex cascade result on a serialized header line. -/
theorem matchTaskLine_header (now : List Char) (t : Task)
    (hidne : t.id ≠ []) (hidc : ∀ x ∈ t.id, wfIdChar x = true)
    (hstatus : t.status = "todo".data ∨ t.status = "done".data) :
    matchTaskLine (taskHeaderLine now t) =
      some ((if t.status = "done".data then 'x' else ' '), t.id,
        if t.status = "done".data then
          some ("<!--".data ++ commentInner now t ++ "-->".data)
        else none) := by
  have hheadid : ∀ x w, (t.id ++ w).head? = some x → pySpace x = false := by
    intro x w hx
    rcases hid : t.id with _ | ⟨y, id0⟩
    · exact absurd hid hidne
    · rw [hid] at hx
      simp only [List.cons_append, List.head?_cons, Option.some.injEq] at hx
      subst hx
      exact (wfIdChar_facts (hidc y (by rw [hid]; simp))).1
  by_cases hdone : t.status = "done".data
  · rw [if_pos hdone, if_pos hdone]
    have hmc := metadataComment_done now t hdone
    have hline : taskHeaderLine now t =
        "- [".data ++ (['x'] ++ ("] ".data ++ (t.id ++
          (' ' :: ("<!--".data ++ commentInner now t ++ "-->".data))))) := by
      unfold taskHeaderLine
      rw [if_pos hdone, hmc]
      simp [List.append_assoc]
    rw [hline]
    have hcb := parseCheckbox_hdr 'x'
      t.id (' ' :: ("<!--".data ++ commentInner now t ++ "-->".data))
      (Or.inl rfl) (fun x hx => hheadid x _ hx)
    rw [matchTaskLine_eq hcb, cascade_done hidne hidc]
  · have htodo : t.status = "todo".data := by
      rcases hstatus with h | h
      · exact h
      · exact absurd h hdone
    rw [if_neg hdone, if_neg hdone]
    have hmcnil : metadataComment now t = [] := by
      unfold metadataComment
      rw [if_pos]
      unfold metadataParts
      rw [if_neg hdone]
    have hline : taskHeaderLine now t =
        "- [".data ++ ([' '] ++ ("] ".data ++ (t.id ++ ([] : List Char)))) := by
      unfold taskHeaderLine
      rw [if_neg hdone, hmcnil]
      simp [List.append_assoc]
    rw [hline]
    have hcb := parseCheckbox_hdr ' ' t.id []
      (Or.inr rfl) (fun x hx => hheadid x _ hx)
    rw [matchTaskLine_eq hcb]
    rw [show t.id ++ ([] : List Char) = t.id from List.append_nil _]
    rw [cascade_todo hidne hidc]

theorem findNotes_cons_skip {c : Char} {rest : List Char} (hc : c ≠ 'n') :
    findNotes (c :: rest) = findNotes rest := by
  have hpf : "notes:".data.isPrefixOf (c :: rest) = false := by
    rw [show "notes:".data = 'n' :: "otes:".data from rfl]
    exact isPrefixOf_false_head _ _ hc
  conv_lhs => unfold findNotes
  rw [if_neg (by simp [hpf])]

theorem findNotes_now (now : List Char) (tail : List Char)
    (hnow : wfNow now = true) : findNotes (now ++ tail) = findNotes tail := by
  induction now with
  | nil => rfl
  | cons c rest ih =>
    have hc : c ≠ 'n' := by
      intro hcn
      have hcw : (c.isDigit || c = '-' || c = ':' || c = '+' ||
          c = 'T' || c = '.' || c = 'Z') = true := by
        have := List.all_eq_true.mp hnow c (by simp)
        simpa using this
      exact absurd (hcn ▸ hcw) (by decide)
    rw [List.cons_append, findNotes_cons_skip hc]
    exact ih (by
      simp only [wfNow, List.all_cons, Bool.and_eq_true] at hnow
      exact List.all_eq_true.mpr (fun x hx =>
        List.all_eq_true.mp hnow.2 x hx))

theorem findNotes_fixed_nonotes (tail : List Char) :
    findNotes ("<!-- status: done; updated: ".data ++ tail) = findNotes tail := by
  simp [findNotes, List.isPrefixOf]

theorem findNotes_fixed_notes (tail : List Char) :
    findNotes ("<!-- status: done; ".data ++ tail) = findNotes tail := by
  simp [findNotes, List.isPrefixOf]

theorem findNotes_at_notes (n rest : List Char)
    (hn : n ≠ []) (hstrip : pyStrip n = n) (hsemi : ∀ c ∈ n, c ≠ ';') :
    findNotes ("notes: ".data ++ (n ++ ';' :: rest)) = some n := by
  have harg : "notes: ".data ++ (n ++ ';' :: rest) =
      'n' :: ("otes:".data ++ (' ' :: (n ++ ';' :: rest))) := by simp
  have hpre : "notes:".data.isPrefixOf
      ('n' :: ("otes:".data ++ (' ' :: (n ++ ';' :: rest)))) = true := by
    rw [show 'n' :: ("otes:".data ++ (' ' :: (n ++ ';' :: rest))) =
      "notes:".data ++ (' ' :: (n ++ ';' :: rest)) from rfl]
    exact isPrefixOf_eq_true_iff.mpr (List.prefix_append _ _)
  rw [harg]
  unfold findNotes
  rw [if_pos hpre]
  have hdrop : ('n' :: ("otes:".data ++ (' ' :: (n ++ ';' :: rest)))).drop 6 =
      ' ' :: (n ++ ';' :: rest) := rfl
  rw [hdrop, matchNotesAt_exact rest hn hstrip hsemi]

theorem comment_shape_none (now : List Char) (t : Task)
    (hdone : t.status = "done".data) (hn : t.notes = none) :
    "<!--".data ++ commentInner now t ++ "-->".data =
      "<!-- status: done; updated: ".data ++ (now ++ "; -->".data) := by
  unfold commentInner metadataParts
  rw [if_pos hdone, hn, hdone]
  simp [joinSep]

theorem comment_shape_some (now : List Char) (t : Task) (n : List Char)
    (hdone : t.status = "done".data) (hn : t.notes = some n) (hne : n ≠ []) :
    "<!--".data ++ commentInner now t ++ "-->".data =
      "<!-- status: done; ".data ++ ("notes: ".data ++
        (n ++ ';' :: (' ' :: ("updated: ".data ++ (now ++ "; -->".data))))) := by
  unfold commentInner metadataParts
  rw [if_pos hdone, hn, hdone]
  simp [joinSep, hne]

/-- Notes recovery: parsing the serialized metadata comment recovers the
task's notes exactly. -/
theorem findNotes_comment (now : List Char) (t : Task)
    (hdone : t.status = "done".data) (hnow : wfNow now = true)
    (hnotes : wfNotes t.status t.notes = true) :
    (findNotes ("<!--".data ++ commentInner now t ++ "-->".data)).map pyStrip =
      t.notes := by
  rcases hn : t.notes with _ | n
  · rw [comment_shape_none now t hdone hn, findNotes_fixed_nonotes,
      findNotes_now now _ hnow]
    rw [show findNotes "; -->".data = none from by decide]
    rfl
  · rw [hn] at hnotes
    simp only [wfNotes, Bool.and_eq_true, decide_eq_true_eq,
      Bool.not_eq_true', List.all_eq_true] at hnotes
    obtain ⟨⟨⟨⟨_, hne'⟩, hstrip⟩, hchars⟩, _⟩ := hnotes
    have hne : n ≠ [] := by
      intro h
      subst h
      simp at hne'
    have hsemi : ∀ c ∈ n, c ≠ ';' := by
      intro c hc
      have := hchars c hc
      simp only [Bool.and_eq_true, decide_eq_true_eq] at this
      exact this.2
    rw [comment_shape_some now t n hdone hn hne, findNotes_fixed_notes,
      findNotes_at_notes n _ hne hstrip hsemi]
    simp [hstrip]

/-! ### The body lines of a serialized task -/

theorem matchTaskLine_descLine (t : Task) :
    matchTaskLine (descriptionLine t) = none := rfl

theorem matchDescLine_descLine (t : Task) :
    matchDescLine (descriptionLine t) =
      some (t.description.dropWhile pySpace) := rfl

theorem matchTaskLine_dependsLine (t : Task) :
    matchTaskLine (dependsLine t) = none := rfl

theorem matchDescLine_dependsLine (t : Task) :
    matchDescLine (dependsLine t) = none := rfl

theorem matchDependsLine_dependsLine (t : Task)
    (hnobr : ∀ c ∈ joinSep ", ".data t.depends_on, c ≠ ']') :
    matchDependsLine (dependsLine t) =
      some (joinSep ", ".data t.depends_on) := by
  show (match splitAtLastChar ']'
      (joinSep ", ".data t.depends_on ++ [']']) with
    | some (pre, _) => some pre
    | none => none) = _
  rw [splitAtLastChar_append hnobr]

theorem matchTaskLine_nil : matchTaskLine [] = none := rfl

theorem matchDescLine_nil : matchDescLine [] = none := rfl

theorem matchDependsLine_nil : matchDependsLine [] = none := rfl

theorem pyStrip_dropWhile (x : List Char) :
    pyStrip (x.dropWhile pySpace) = pyStrip x := by
  unfold pyStrip
  rw [dropWhile_id_of_head (fun c hc => head_dropWhile_false c hc)]

/-! ### Splitting the serialized dependency list -/

theorem splitOnComma_ne_nil (x : List Char) : splitOnComma x ≠ [] := by
  cases x with
  | nil => simp [splitOnComma]
  | cons c rest =>
    unfold splitOnComma
    split
    · simp
    · split <;> simp

theorem splitOnComma_no_comma {d : List Char} (hd : ∀ c ∈ d, c ≠ ',') :
    splitOnComma d = [d] := by
  induction d with
  | nil => rfl
  | cons c d' ih =>
    conv_lhs => unfold splitOnComma
    rw [ih (fun x hx => hd x (by simp [hx]))]
    show (if c = ',' then [] :: d' :: [] else (c :: d') :: []) = [c :: d']
    rw [if_neg (hd c (by simp))]

theorem splitOnComma_append {d : List Char} (x : List Char)
    (hd : ∀ c ∈ d, c ≠ ',') :
    splitOnComma (d ++ ',' :: x) = d :: splitOnComma x := by
  induction d with
  | nil =>
    rw [List.nil_append]
    conv_lhs => unfold splitOnComma
    rcases h : splitOnComma x with _ | ⟨seg, segs⟩
    · exact absurd h (splitOnComma_ne_nil x)
    · show (if (',' : Char) = ',' then [] :: seg :: segs
        else (',' :: seg) :: segs) = [] :: seg :: segs
      rw [if_pos rfl]
  | cons c d' ih =>
    rw [List.cons_append]
    conv_lhs => unfold splitOnComma
    rw [ih (fun y hy => hd y (by simp [hy]))]
    show (if c = ',' then [] :: d' :: splitOnComma x
      else (c :: d') :: splitOnComma x) = (c :: d') :: splitOnComma x
    rw [if_neg (hd c (by simp))]

theorem splitOnComma_joinSep {e : List Char} {ds : List (List Char)}
    (hall : ∀ d ∈ e :: ds, ∀ c ∈ d, c ≠ ',') :
    splitOnComma (joinSep ", ".data (e :: ds)) =
      e :: ds.map (fun z => ' ' :: z) := by
  induction ds generalizing e with
  | nil => exact splitOnComma_no_comma (hall e (by simp))
  | cons f ds' ih =>
    rw [show joinSep ", ".data (e :: f :: ds') =
      e ++ (',' :: ' ' :: joinSep ", ".data (f :: ds')) from by
        simp [joinSep]]
    rw [splitOnComma_append _ (hall e (by simp))]
    have hsplit : splitOnComma (' ' :: joinSep ", ".data (f :: ds')) =
        (' ' :: f) :: (ds'.map (fun z => ' ' :: z)) := by
      conv_lhs => unfold splitOnComma
      rw [ih (fun d hd => hall d (by simp at hd ⊢; tauto))]
      show (if (' ' : Char) = ',' then [] :: f :: ds'.map (fun z => ' ' :: z)
        else (' ' :: f) :: ds'.map (fun z => ' ' :: z)) = _
      rw [if_neg (by decide)]
    rw [hsplit]
    simp

theorem getLast?_joinSep {deps : List (List Char)} (hne : ∀ d ∈ deps, d ≠ []) :
    ∀ e ∈ deps.getLast?, (joinSep ", ".data deps).getLast? = e.getLast? := by
  induction deps with
  | nil => simp
  | cons d ds ih =>
    intro e he
    cases ds with
    | nil =>
      simp only [List.getLast?_singleton, Option.mem_def, Option.some.injEq] at he
      subst he
      rfl
    | cons f ds' =>
      have he' : e ∈ (f :: ds').getLast? := by
        simpa [List.getLast?_cons_cons] using he
      rw [show joinSep ", ".data (d :: f :: ds') =
        d ++ (',' :: ' ' :: joinSep ", ".data (f :: ds')) from by
          simp [joinSep]]
      rw [List.getLast?_append_of_ne_nil]
      · have := ih (fun x hx => hne x (by simp [hx])) e he'
        rw [← this]
        show (',' :: (' ' :: joinSep ", ".data (f :: ds'))).getLast? = _
        rw [List.getLast?_cons_cons]
        cases hj : joinSep ", ".data (f :: ds') with
        | nil =>
          exfalso
          have hf : f ≠ [] := hne f (by simp)
          rcases hf2 : f with _ | ⟨a, b⟩
          · exact hf hf2
          cases ds' with
          | nil => rw [hf2] at hj; simp [joinSep] at hj
          | cons g ds'' =>
            rw [hf2] at hj
            simp [joinSep] at hj
        | cons a b =>
          rw [List.getLast?_cons_cons]
      · simp

/-! ### The parser fold over a serialized document -/

/-- The observable content of a task: everything except `raw_lines`
(the round-trip claim compares tasks up to the retained raw lines). -/
def Task.core (t : Task) :
    List Char × List Char × List Char × List (List Char) × Option (List Char) :=
  (t.id, t.description, t.status, t.depends_on, t.notes)

theorem wfTask_parts {t : Task} (h : wfTask t = true) :
    t.id ≠ [] ∧ (∀ x ∈ t.id, wfIdChar x = true) ∧
    (∀ c ∈ t.description, pyLineBreak c = false) ∧
    pyStrip t.description = t.description ∧
    (t.status = "todo".data ∨ t.status = "done".data) ∧
    (∀ d ∈ t.depends_on, wfDep d = true) ∧
    wfNotes t.status t.notes = true := by
  simp only [wfTask, wfId, wfDescription, Bool.and_eq_true, Bool.or_eq_true,
    Bool.not_eq_true', List.all_eq_true, decide_eq_true_eq] at h
  obtain ⟨⟨⟨⟨⟨hid1, hid2⟩, hd1, hd2⟩, hst⟩, hdeps⟩, hnotes⟩ := h
  refine ⟨?_, hid2, ?_, hd2, ?_, hdeps, hnotes⟩
  · intro he
    rw [he] at hid1
    simp at hid1
  · intro c hc
    simpa using hd1 c hc
  · rcases hst with h | h
    · exact Or.inl h
    · exact Or.inr h

/-- The notes of a well-formed `todo` task are absent. -/
theorem wfNotes_todo {t : Task} (htodo : t.status = "todo".data)
    (h : wfNotes t.status t.notes = true) : t.notes = none := by
  rcases hn : t.notes with _ | n
  · rfl
  · rw [hn] at h
    simp only [wfNotes, Bool.and_eq_true, decide_eq_true_eq] at h
    rw [htodo] at h
    exact absurd h.1.1.1.1 (by decide)

/-- `parseLine` on a serialized header line: flush, then open the task. -/
theorem parseLine_header (now : List Char) (t : Task) (st : ParseState)
    (hwf : wfTask t = true) (hnow : wfNow now = true) :
    parseLine st (taskHeaderLine now t) =
      { tasks := (flushCurrent st).tasks,
        current := some { id := t.id, status := t.status,
                          raw_lines := [taskHeaderLine now t],
                          depends_on := [], description := none,
                          notes := t.notes } } := by
  obtain ⟨hidne, hidc, _, _, hstatus, _, hnotes⟩ := wfTask_parts hwf
  have hstat : (if (if t.status = "done".data then 'x' else ' ') = 'x'
      then "done".data else "todo".data) = t.status := by
    by_cases hd : t.status = "done".data
    · rw [if_pos hd, if_pos rfl]
      exact hd.symm
    · rw [if_neg hd, if_neg (by decide)]
      rcases hstatus with h | h
      · exact h.symm
      · exact absurd h hd
  have hnote : (match (if t.status = "done".data then
        some ("<!--".data ++ commentInner now t ++ "-->".data) else none) with
      | some c => (findNotes c).map pyStrip
      | none => none) = t.notes := by
    by_cases hd : t.status = "done".data
    · rw [if_pos hd]
      exact findNotes_comment now t hd hnow hnotes
    · rw [if_neg hd]
      have htodo : t.status = "todo".data := by
        rcases hstatus with h | h
        · exact h
        · exact absurd h hd
      exact (wfNotes_todo htodo hnotes).symm
  simp only [parseLine, matchTaskLine_header now t hidne hidc hstatus]
  rw [hstat, hnote]

/-- `parseLine` on a serialized description line. -/
theorem parseLine_desc (st : ParseState) (d : CurData) (t : Task)
    (hcur : st.current = some d) :
    parseLine st (descriptionLine t) =
      { st with current := some { d with
          raw_lines := d.raw_lines ++ [descriptionLine t],
          description := some (pyStrip t.description) } } := by
  unfold parseLine
  rw [matchTaskLine_descLine, hcur, matchDescLine_descLine]
  show ({ st with current := some { d with
      raw_lines := d.raw_lines ++ [descriptionLine t],
      description := some (pyStrip (t.description.dropWhile pySpace)) } }
    : ParseState) = _
  rw [pyStrip_dropWhile]

theorem mem_joinSep {c : Char} {sep : List Char} {ls : List (List Char)}
    (hc : c ∈ joinSep sep ls) : (∃ l ∈ ls, c ∈ l) ∨ c ∈ sep := by
  induction ls with
  | nil => simp [joinSep] at hc
  | cons l ls ih =>
    cases ls with
    | nil =>
      left
      exact ⟨l, by simp, hc⟩
    | cons l' ls' =>
      rw [show joinSep sep (l :: l' :: ls') =
        l ++ (sep ++ joinSep sep (l' :: ls')) from by simp [joinSep]] at hc
      rcases List.mem_append.mp hc with h | h
      · exact Or.inl ⟨l, by simp, h⟩
      · rcases List.mem_append.mp h with h' | h'
        · exact Or.inr h'
        · rcases ih h' with ⟨l'', hl'', hc''⟩ | h''
          · exact Or.inl ⟨l'', by simp [hl''], hc''⟩
          · exact Or.inr h''

/-- Parsing the serialized dependency list recovers it exactly. -/
theorem depsParse {deps : List (List Char)} (hne : deps ≠ [])
    (hwf : ∀ d ∈ deps, wfDep d = true) :
    pyStrip (joinSep ", ".data deps) = joinSep ", ".data deps ∧
    joinSep ", ".data deps ≠ [] ∧
    ((splitOnComma (joinSep ", ".data deps)).map pyStrip).filter
      (fun x => x ≠ []) = deps ∧
    (∀ c ∈ joinSep ", ".data deps, c ≠ ']') := by
  have hwf' : ∀ d ∈ deps, d ≠ [] ∧ pyStrip d = d ∧
      ∀ c ∈ d, pyLineBreak c = false ∧ c ≠ ',' ∧ c ≠ ']' := by
    intro d hd
    have h := hwf d hd
    simp only [wfDep, Bool.and_eq_true, Bool.not_eq_true',
      List.all_eq_true, decide_eq_true_eq] at h
    obtain ⟨⟨hd1, hd2⟩, hd3⟩ := h
    refine ⟨?_, hd2, ?_⟩
    · intro he; rw [he] at hd1; simp at hd1
    · intro c hc
      have := hd3 c hc
      simp only [Bool.and_eq_true, decide_eq_true_eq, Bool.not_eq_true'] at this
      exact ⟨this.1.1, this.1.2, this.2⟩
  rcases hd : deps with _ | ⟨e, ds⟩
  · exact absurd hd hne
  have hcomma : ∀ d ∈ e :: ds, ∀ c ∈ d, c ≠ ',' := by
    intro d hdm c hc
    exact ((hwf' d (hd ▸ hdm)).2.2 c hc).2.1
  have hene : e ≠ [] := (hwf' e (by rw [hd]; simp)).1
  have hestrip : pyStrip e = e := (hwf' e (by rw [hd]; simp)).2.1
  refine ⟨?_, ?_, ?_, ?_⟩
  · -- strip-invariance of the joined list
    refine pyStrip_eq_self_of ?_ ?_
    · intro c hc
      cases ds with
      | nil =>
        exact pyStrip_head_not_space hestrip c hc
      | cons f ds' =>
        rw [show joinSep ", ".data (e :: f :: ds') =
          e ++ (',' :: ' ' :: joinSep ", ".data (f :: ds')) from by
            simp [joinSep]] at hc
        rcases he : e with _ | ⟨a, b⟩
        · exact absurd he hene
        rw [he, List.cons_append] at hc
        simp only [List.head?_cons, Option.some.injEq] at hc
        subst hc
        exact pyStrip_head_not_space hestrip a (by rw [he]; rfl)
    · intro c hc
      have hlast : ∀ d ∈ e :: ds, d ≠ [] := by
        intro d hdm
        exact (hwf' d (hd ▸ hdm)).1
      have hlastdep : ((e :: ds).getLast (by simp)) ∈ e :: ds :=
        List.getLast_mem _
      have hgl := getLast?_joinSep hlast ((e :: ds).getLast (by simp))
        (by rw [List.getLast?_eq_getLast _ (by simp)]; exact rfl)
      rw [hgl] at hc
      exact pyStrip_getLast_not_space
        ((hwf' _ (hd ▸ hlastdep)).2.1) c hc
  · intro hnil
    cases ds with
    | nil => exact hene hnil
    | cons f ds' =>
      rw [show joinSep ", ".data (e :: f :: ds') =
        e ++ (',' :: ' ' :: joinSep ", ".data (f :: ds')) from by
          simp [joinSep]] at hnil
      rcases he : e with _ | ⟨a, b⟩
      · exact absurd he hene
      rw [he] at hnil
      simp at hnil
  · rw [splitOnComma_joinSep hcomma]
    have hmap : (e :: ds.map (fun z => ' ' :: z)).map pyStrip = e :: ds := by
      simp only [List.map_cons, List.map_map]
      rw [hestrip]
      congr 1
      have hcomp : ∀ d ∈ ds, (pyStrip ∘ fun z => ' ' :: z) d = id d := by
        intro d hdm
        show pyStrip (' ' :: d) = d
        rw [pyStrip_cons_space (show pySpace ' ' = true from by decide) d]
        exact (hwf' d (by rw [hd]; simp [hdm])).2.1
      rw [List.map_congr_left hcomp, List.map_id]
    rw [hmap]
    have : ∀ d ∈ e :: ds, d ≠ [] := fun d hdm => (hwf' d (hd ▸ hdm)).1
    rw [List.filter_eq_self.mpr]
    intro a ha
    simpa using this a ha
  · intro c hc
    rcases mem_joinSep hc with ⟨l, hl, hcl⟩ | h
    · exact ((hwf' l (hd ▸ hl)).2.2 c hcl).2.2
    · have hcs : c = ',' ∨ c = ' ' := by simpa using h
      rcases hcs with rfl | rfl <;> decide

/-- `parseLine` on a serialized depends line. -/
theorem parseLine_deps (st : ParseState) (d : CurData) (t : Task)
    (hcur : st.current = some d) (hne : t.depends_on ≠ [])
    (hwfdeps : ∀ dep ∈ t.depends_on, wfDep dep = true) :
    parseLine st (dependsLine t) =
      { st with current := some { d with
          raw_lines := d.raw_lines ++ [dependsLine t],
          depends_on := t.depends_on } } := by
  obtain ⟨hstrip, hjoinne, hsplit, hnobr⟩ := depsParse hne hwfdeps
  unfold parseLine
  rw [matchTaskLine_dependsLine, hcur, matchDescLine_dependsLine,
    matchDependsLine_dependsLine t hnobr]
  show (let deps_str := pyStrip (joinSep ", ".data t.depends_on)
    if deps_str = [] then
      { st with current := some { d with
          raw_lines := d.raw_lines ++ [dependsLine t] } }
    else { st with current := some { d with
        raw_lines := d.raw_lines ++ [dependsLine t],
        depends_on := ((splitOnComma deps_str).map pyStrip).filter
          (fun x => x ≠ []) } }) = _
  rw [hstrip]
  show (if joinSep ", ".data t.depends_on = [] then _ else _) = _
  rw [if_neg hjoinne, hsplit]

/-- `parseLine` on a blank separator line: only `raw_lines` grows. -/
theorem parseLine_blank (st : ParseState) (d : CurData)
    (hcur : st.current = some d) :
    parseLine st [] =
      { st with current := some { d with raw_lines := d.raw_lines ++ [[]] } } := by
  unfold parseLine
  rw [matchTaskLine_nil, hcur, matchDescLine_nil, matchDependsLine_nil]

/-- `parseLine` ignores non-task lines while no task is open. -/
theorem parseLine_noop (st : ParseState) (line : List Char)
    (hml : matchTaskLine line = none) (hcur : st.current = none) :
    parseLine st line = st := by
  unfold parseLine
  rw [hml, hcur]

theorem core_flushTask_raw (d : CurData) (r : List (List Char)) :
    Task.core (flushTask { d with raw_lines := r }) =
      Task.core (flushTask d) := rfl

theorem core_flushTask (t : Task) (raw : List (List Char))
    (hdstrip : pyStrip t.description = t.description) :
    Task.core (flushTask
      { id := t.id, status := t.status, raw_lines := raw,
        depends_on := t.depends_on,
        description := some (pyStrip t.description),
        notes := t.notes }) = Task.core t := by
  unfold flushTask Task.create Task.core
  rw [hdstrip]
  by_cases hd : t.description = []
  · simp [hd]
  · simp [hd, hdstrip]

/-- Folding the parser over one task's serialized lines, without the
trailing blank: the previous task is flushed and the new one is fully
accumulated. -/
theorem parse_seg_init (now : List Char) (t : Task) (st : ParseState)
    (hwf : wfTask t = true) (hnow : wfNow now = true) :
    ∃ d : CurData,
      List.foldl parseLine st
        ([taskHeaderLine now t, descriptionLine t] ++
          (if t.depends_on = [] then [] else [dependsLine t])) =
        { tasks := (flushCurrent st).tasks, current := some d } ∧
      Task.core (flushTask d) = Task.core t := by
  obtain ⟨_, _, _, hdstrip, _, hwfdeps, _⟩ := wfTask_parts hwf
  by_cases hdeps : t.depends_on = []
  · rw [if_pos hdeps]
    refine ⟨{ id := t.id, status := t.status,
              raw_lines := [taskHeaderLine now t] ++ [descriptionLine t],
              depends_on := [], description := some (pyStrip t.description),
              notes := t.notes }, ?_, ?_⟩
    · simp only [List.append_nil, List.foldl_cons, List.foldl_nil]
      rw [parseLine_header now t st hwf hnow, parseLine_desc _ _ t rfl]
    · rw [show ([] : List (List Char)) = t.depends_on from hdeps.symm]
      exact core_flushTask t _ hdstrip
  · rw [if_neg hdeps]
    refine ⟨{ id := t.id, status := t.status,
              raw_lines := ([taskHeaderLine now t] ++ [descriptionLine t]) ++
                [dependsLine t],
              depends_on := t.depends_on,
              description := some (pyStrip t.description),
              notes := t.notes }, ?_, ?_⟩
    · simp only [List.cons_append, List.nil_append, List.foldl_cons,
        List.foldl_nil]
      rw [parseLine_header now t st hwf hnow, parseLine_desc _ _ t rfl,
        parseLine_deps _ _ t rfl hdeps hwfdeps]
      rfl
    · exact core_flushTask t _ hdstrip

/-- The same, for the full segment including the trailing blank line. -/
theorem parse_seg_full (now : List Char) (t : Task) (st : ParseState)
    (hwf : wfTask t = true) (hnow : wfNow now = true) :
    ∃ d : CurData,
      List.foldl parseLine st (serializeTaskLines now t) =
        { tasks := (flushCurrent st).tasks, current := some d } ∧
      Task.core (flushTask d) = Task.core t := by
  obtain ⟨d, hfold, hcore⟩ := parse_seg_init now t st hwf hnow
  refine ⟨{ d with raw_lines := d.raw_lines ++ [[]] }, ?_, ?_⟩
  · show List.foldl parseLine st
      (([taskHeaderLine now t, descriptionLine t] ++
        (if t.depends_on = [] then [] else [dependsLine t])) ++ [[]]) = _
    rw [List.foldl_append, hfold, List.foldl_cons, List.foldl_nil,
      parseLine_blank _ d rfl]
  · rw [core_flushTask_raw]
    exact hcore

/-- The serialized lines of a non-empty plan, with the very last blank
dropped (Python `splitlines` drops a trailing empty line). -/
def docLinesInit (now : List Char) : List Task → List (List Char)
  | [] => []
  | [t] => [taskHeaderLine now t, descriptionLine t] ++
      (if t.depends_on = [] then [] else [dependsLine t])
  | t :: t' :: ts => serializeTaskLines now t ++ docLinesInit now (t' :: ts)

theorem flatten_serialize (now : List Char) :
    ∀ (ts : List Task), ts ≠ [] →
      (ts.map (serializeTaskLines now)).flatten = docLinesInit now ts ++ [[]]
  | [], h => absurd rfl h
  | [t], _ => by
    show serializeTaskLines now t ++ [] = _
    rw [List.append_nil]
    rfl
  | t :: t' :: ts, _ => by
    show serializeTaskLines now t ++ ((t' :: ts).map _).flatten = _
    rw [flatten_serialize now (t' :: ts) (by simp)]
    rw [show docLinesInit now (t :: t' :: ts) =
      serializeTaskLines now t ++ docLinesInit now (t' :: ts) from rfl]
    rw [List.append_assoc]

/-- The parser fold over the serialized body lines of a non-empty plan. -/
theorem parse_docInit (now : List Char) (hnow : wfNow now = true) :
    ∀ (ts : List Task), ts ≠ [] → (∀ t ∈ ts, wfTask t = true) →
      ∀ st : ParseState,
      ((flushCurrent (List.foldl parseLine st (docLinesInit now ts))).tasks).map
          Task.core =
        ((flushCurrent st).tasks).map Task.core ++ ts.map Task.core
  | [], h, _ => absurd rfl h
  | [t], _, hwf => by
    intro st
    obtain ⟨d, hfold, hcore⟩ := parse_seg_init now t st (hwf t (by simp)) hnow
    rw [show docLinesInit now [t] =
      [taskHeaderLine now t, descriptionLine t] ++
        (if t.depends_on = [] then [] else [dependsLine t]) from rfl]
    rw [hfold]
    show (((flushCurrent st).tasks ++ [flushTask d]).map Task.core) = _
    rw [List.map_append]
    simp only [List.map_cons, List.map_nil, hcore]
  | t :: t' :: ts, _, hwf => by
    intro st
    obtain ⟨d, hfold, hcore⟩ := parse_seg_full now t st (hwf t (by simp)) hnow
    rw [show docLinesInit now (t :: t' :: ts) =
      serializeTaskLines now t ++ docLinesInit now (t' :: ts) from rfl]
    rw [List.foldl_append, hfold]
    rw [parse_docInit now hnow (t' :: ts) (by simp)
      (fun u hu => hwf u (by simp [hu])) _]
    show ((flushCurrent st).tasks ++ [flushTask d]).map Task.core ++ _ = _
    rw [List.map_append]
    simp only [List.map_cons, List.map_nil, hcore]
    simp

theorem ne_nl_of_not_space {c : Char} (h : pySpace c = false) : c ≠ '\n' := by
  intro hc
  rw [hc] at h
  exact absurd h (by decide)

theorem ne_nl_of_no_break {c : Char} (h : pyLineBreak c = false) :
    c ≠ '\n' := by
  intro hc
  rw [hc] at h
  exact absurd h (by decide)

theorem noNL_append {a b : List Char} (ha : ∀ c ∈ a, c ≠ '\n')
    (hb : ∀ c ∈ b, c ≠ '\n') : ∀ c ∈ a ++ b, c ≠ '\n' := by
  intro c hc
  rcases List.mem_append.mp hc with h | h
  · exact ha c h
  · exact hb c h

theorem noNL_of_all (a : List Char)
    (h : a.all (fun c => !(c = '\n')) = true) : ∀ c ∈ a, c ≠ '\n' := by
  intro c hc
  simpa using List.all_eq_true.mp h c hc

theorem noNL_now {now : List Char} (hnow : wfNow now = true) :
    ∀ c ∈ now, c ≠ '\n' := by
  intro c hc hnl
  have h := List.all_eq_true.mp hnow c hc
  rw [hnl] at h
  exact absurd h (by decide)

theorem noNL_metadataComment (now : List Char) (t : Task)
    (hwf : wfTask t = true) (hnow : wfNow now = true) :
    ∀ c ∈ metadataComment now t, c ≠ '\n' := by
  obtain ⟨_, _, _, _, hstatus, _, hnotes⟩ := wfTask_parts hwf
  unfold metadataComment
  by_cases hp : metadataParts now t = []
  · rw [if_pos hp]
    intro c hc
    exact absurd hc (by simp)
  · rw [if_neg hp]
    refine noNL_append (noNL_append (noNL_of_all _ (by decide)) ?_)
      (noNL_of_all _ (by decide))
    intro c hc
    rcases mem_joinSep hc with ⟨l, hl, hcl⟩ | hsep
    · revert hl
      unfold metadataParts
      by_cases hst : t.status = "done".data
      · rw [if_pos hst]
        intro hl
        rcases List.mem_append.mp hl with hl1 | hl2
        · rcases List.mem_append.mp hl1 with hl3 | hl4
          · rw [List.mem_singleton.mp hl3, hst] at hcl
            exact noNL_of_all _ (by decide) c hcl
          · rcases hnt : t.notes with _ | n
            · rw [hnt] at hl4
              exact absurd hl4 (by simp)
            · rw [hnt] at hl4 hnotes
              have hl5 : l ∈
                  (if n = [] then []
                   else ["notes: ".data ++ n] : List (List Char)) := hl4
              by_cases hne : n = []
              · rw [if_pos hne] at hl5
                exact absurd hl5 (by simp)
              · rw [if_neg hne] at hl5
                rw [List.mem_singleton.mp hl5] at hcl
                refine noNL_append (noNL_of_all _ (by decide)) ?_ c hcl
                intro x hx
                simp only [wfNotes, Bool.and_eq_true, List.all_eq_true] at hnotes
                exact ne_nl_of_no_break
                  (by simpa using (hnotes.1.2 x hx).1)
        · rw [List.mem_singleton.mp hl2] at hcl
          exact noNL_append (noNL_of_all _ (by decide)) (noNL_now hnow) c hcl
      · rw [if_neg hst]
        intro hl
        exact absurd hl (by simp)
    · exact noNL_of_all "; ".data (by decide) c hsep

theorem noNL_header {now : List Char} {t : Task} (hwf : wfTask t = true)
    (hnow : wfNow now = true) : ∀ c ∈ taskHeaderLine now t, c ≠ '\n' := by
  obtain ⟨_, hidc, _, _, _, _, _⟩ := wfTask_parts hwf
  unfold taskHeaderLine
  refine noNL_append (noNL_append (noNL_append (noNL_append
    (noNL_of_all _ (by decide)) ?chk) (noNL_of_all _ (by decide))) ?id)
    (noNL_metadataComment now t hwf hnow)
  case chk =>
    intro c hc
    rw [List.mem_singleton.mp hc]
    by_cases hst : t.status = "done".data
    · rw [if_pos hst]; decide
    · rw [if_neg hst]; decide
  case id =>
    intro c hc
    exact ne_nl_of_not_space (wfIdChar_facts (hidc c hc)).1

theorem noNL_desc {t : Task} (hwf : wfTask t = true) :
    ∀ c ∈ descriptionLine t, c ≠ '\n' := by
  obtain ⟨_, _, hd, _, _, _, _⟩ := wfTask_parts hwf
  unfold descriptionLine
  refine noNL_append (noNL_of_all _ (by decide)) ?_
  intro c hc
  exact ne_nl_of_no_break (hd c hc)

theorem noNL_deps {t : Task} (hwf : wfTask t = true) :
    ∀ c ∈ dependsLine t, c ≠ '\n' := by
  obtain ⟨_, _, _, _, _, hdeps, _⟩ := wfTask_parts hwf
  unfold dependsLine
  refine noNL_append (noNL_append (noNL_of_all _ (by decide)) ?_)
    (noNL_of_all _ (by decide))
  intro c hc
  rcases mem_joinSep hc with ⟨l, hl, hcl⟩ | hsep
  · have hwfd := hdeps l hl
    simp only [wfDep, Bool.and_eq_true, List.all_eq_true] at hwfd
    exact ne_nl_of_no_break (by simpa using (hwfd.2 c hcl).1.1)
  · exact noNL_of_all ", ".data (by decide) c hsep

theorem noNL_docLinesInit (now : List Char) (hnow : wfNow now = true) :
    ∀ (ts : List Task), (∀ t ∈ ts, wfTask t = true) →
      ∀ l ∈ docLinesInit now ts, ∀ c ∈ l, c ≠ '\n'
  | [], _ => by intro l hl; exact absurd hl (by simp [docLinesInit])
  | [t], hwf => by
    intro l hl
    rw [show docLinesInit now [t] = [taskHeaderLine now t, descriptionLine t] ++
      (if t.depends_on = [] then [] else [dependsLine t]) from rfl] at hl
    have hwt := hwf t (by simp)
    rcases List.mem_append.mp hl with h | h
    · rcases List.mem_cons.mp h with h1 | h1
      · rw [h1]; exact noNL_header hwt hnow
      · rw [List.mem_singleton.mp h1]; exact noNL_desc hwt
    · by_cases hd : t.depends_on = []
      · rw [if_pos hd] at h; exact absurd h (by simp)
      · rw [if_neg hd] at h
        rw [List.mem_singleton.mp h]; exact noNL_deps hwt
  | t :: u :: ts, hwf => by
    intro l hl
    rw [show docLinesInit now (t :: u :: ts) = serializeTaskLines now t ++
      docLinesInit now (u :: ts) from rfl] at hl
    have hwt := hwf t (by simp)
    rcases List.mem_append.mp hl with h | h
    · unfold serializeTaskLines at h
      rcases List.mem_append.mp h with h2 | h2
      · rcases List.mem_append.mp h2 with h3 | h3
        · rcases List.mem_cons.mp h3 with h4 | h4
          · rw [h4]; exact noNL_header hwt hnow
          · rw [List.mem_singleton.mp h4]; exact noNL_desc hwt
        · by_cases hd : t.depends_on = []
          · rw [if_pos hd] at h3; exact absurd h3 (by simp)
          · rw [if_neg hd] at h3
            rw [List.mem_singleton.mp h3]; exact noNL_deps hwt
      · rw [List.mem_singleton.mp h2]
        intro c hc
        exact absurd hc (by simp)
    · exact noNL_docLinesInit now hnow (u :: ts)
        (fun v hv => hwf v (by simp [List.mem_cons.mp hv])) l h

theorem splitLines_append_newline {a : List Char} (rest : List Char)
    (ha : ∀ c ∈ a, c ≠ '\n') :
    splitLines (a ++ '\n' :: rest) = a :: splitLines rest := by
  induction a with
  | nil =>
    rw [List.nil_append]
    conv_lhs => unfold splitLines
    rw [if_pos rfl]
  | cons c a ih =>
    rw [List.cons_append]
    conv_lhs => unfold splitLines
    rw [if_neg (ha c (by simp)), ih (fun x hx => ha x (by simp [hx]))]

theorem joinSep_nl_cons (x y : List Char) (ys : List (List Char)) :
    joinSep "\n".data (x :: y :: ys) =
      x ++ '\n' :: joinSep "\n".data (y :: ys) := by
  show x ++ "\n".data ++ joinSep "\n".data (y :: ys) = _
  rw [List.append_assoc]
  rfl

theorem splitLines_join_blank :
    ∀ (ls : List (List Char)), (∀ l ∈ ls, ∀ c ∈ l, c ≠ '\n') →
      splitLines (joinSep "\n".data (ls ++ [[]])) = ls
  | [], _ => rfl
  | x :: ls, h => by
    rw [show (x :: ls) ++ [[]] = x :: (ls ++ [[]]) from rfl]
    rcases h2 : ls ++ [[]] with _ | ⟨y, ys⟩
    · exact absurd h2 (by simp)
    · rw [joinSep_nl_cons, splitLines_append_newline _ (h x (by simp))]
      rw [← h2, splitLines_join_blank ls (fun l hl => h l (by simp [hl]))]

/-- C3 (corrected): the claimed round-trip — serializing any in-memory
task list and parsing the document back yields an equal task list — fails
in general (see the counterexample: a `todo` task carrying notes loses
them, because the serializer emits metadata only for `done` tasks; ids
containing a dash are also truncated at the last dash by the header-regex
cascade).  The amended property holds: for every well-formed plan (ids
over letters, digits and underscore; single-line strip-invariant
descriptions; status `todo` or `done`; dependency ids free of `,` and
`]`; notes only on `done` tasks, non-empty, single-line, free of `;` and
`-->`), serializing with any well-formed timestamp and parsing back
preserves every task's id, description, status, dependency list and
notes. -/
theorem C3_wf_round_trip (now : List Char) (tasks : List Task)
    (hwf : wfPlan now tasks = true) :
    (parsePlanMarkdown (serializePlanMarkdown now tasks)).map Task.core =
      tasks.map Task.core := by
  have hparts := hwf
  simp only [wfPlan, Bool.and_eq_true, List.all_eq_true] at hparts
  obtain ⟨hnow, htasks⟩ := hparts
  cases tasks with
  | nil => rfl
  | cons t ts =>
    have hL := flatten_serialize now (t :: ts) (by simp)
    unfold serializePlanMarkdown parsePlanMarkdown
    rw [hL]
    have hnoNL := noNL_docLinesInit now hnow (t :: ts) htasks
    rcases hI : docLinesInit now (t :: ts) ++ [[]] with _ | ⟨y, ys⟩
    · exact absurd hI (by simp)
    · rw [joinSep_nl_cons]
      rw [show "# Migration Plan\n".data =
        "# Migration Plan".data ++ ['\n'] from rfl]
      rw [List.append_assoc]
      rw [show ['\n'] ++ '\n' :: joinSep "\n".data (y :: ys) =
        '\n' :: ('\n' :: joinSep "\n".data (y :: ys)) from rfl]
      rw [splitLines_append_newline _ (by decide)]
      rw [show ('\n' :: joinSep "\n".data (y :: ys)) =
        [] ++ '\n' :: joinSep "\n".data (y :: ys) from rfl]
      rw [splitLines_append_newline _ (by simp)]
      rw [← hI, splitLines_join_blank _ hnoNL]
      rw [List.foldl_cons, List.foldl_cons]
      rw [parseLine_noop _ _ (by rfl) rfl, parseLine_noop _ _ (by rfl) rfl]
      rw [parse_docInit now hnow (t :: ts) (by simp) htasks _]
      rfl

/-- A concrete well-formed two-task plan (a `done` task with notes, a
`todo` task depending on it). -/
def c3Tasks : List Task :=
  [{ id := "T1".data, description := "Set up tooling".data,
     status := "done".data, depends_on := [], notes := some "ok".data,
     raw_lines := [] },
   { id := "T2".data, description := "Build the app".data,
     status := "todo".data, depends_on := ["T1".data], notes := none,
     raw_lines := [] }]

/-- A concrete serializer timestamp. -/
def c3Now : List Char := "2025-05-08T18:00:00+00:00".data

/-- A `todo` task carrying notes: the serializer drops them. -/
def c3Bad : Task :=
  { id := "T1".data, description := "Fix the build".data,
    status := "todo".data, depends_on := [],
    notes := some "remember the edge case".data, raw_lines := [] }

theorem C3_wf_round_trip_witness :
    wfPlan c3Now c3Tasks = true ∧
    (parsePlanMarkdown (serializePlanMarkdown c3Now c3Tasks)).map Task.core =
      c3Tasks.map Task.core :=
  ⟨by decide, C3_wf_round_trip c3Now c3Tasks (by decide)⟩

set_option synthInstance.maxSize 512 in
set_option maxHeartbeats 2000000 in
/-- Counterexample to C3 as stated: a `todo` task with notes does not
round-trip — the parsed task has `notes = none` although the original
holds notes, a semantic (not whitespace) difference. -/
theorem C3_todo_notes_not_roundtripped :
    (parsePlanMarkdown (serializePlanMarkdown c3Now [c3Bad])).map Task.core ≠
      [c3Bad].map Task.core := by
  decide

/-! ### C4: the rewrite and `raw_lines` -/

/-- Replacing every task's `raw_lines` leaves each task's serialized
lines unchanged: the serializer never reads them. -/
theorem serializeTaskLines_ignores_raw (now : List Char) (t : Task)
    (r : List (List Char)) :
    serializeTaskLines now { t with raw_lines := r } =
      serializeTaskLines now t := rfl

/-- C4 (corrected): the claim that incomplete tasks are re-emitted with
their original verbatim document lines is false — the serializer never
reads `raw_lines` (see the counterexample, where a `todo` task parsed
from a `**T01: ...**` header is re-emitted in canonical form instead).
The amended property: the rewritten document is a pure function of the
semantic task fields — replacing every task's `raw_lines` arbitrarily
leaves the serialized document unchanged, and every task (complete or
not) is emitted in the canonical `- [c] id` / `  - description: ...` /
`  - depends: [...]` shape. -/
theorem C4_serialize_ignores_raw_lines (now : List Char) (tasks : List Task)
    (f : Task → List (List Char)) :
    serializePlanMarkdown now
        (tasks.map (fun t => { t with raw_lines := f t })) =
      serializePlanMarkdown now tasks := by
  have h : (tasks.map (fun t => { t with raw_lines := f t })).map
      (serializeTaskLines now) = tasks.map (serializeTaskLines now) := by
    rw [List.map_map]
    exact List.map_congr_left (fun t _ => rfl)
  unfold serializePlanMarkdown
  rw [h]

/-- Tasks for the C4 counterexample: the first (incomplete) task retains
a starred header as its verbatim raw line. -/
def c4Tasks : List Task :=
  [{ id := "T01".data, description := "Set up tooling".data,
     status := "todo".data, depends_on := [], notes := none,
     raw_lines := ["- [ ] **T01: Set up tooling**".data,
                   "  - description: Set up tooling".data] },
   { id := "T02".data, description := "Copy assets".data,
     status := "todo".data, depends_on := [], notes := none,
     raw_lines := ["- [ ] T02".data,
                   "  - description: Copy assets".data] }]

def c4Now : List Char := "2025-06-01T10:00:00+00:00".data

set_option maxHeartbeats 2000000 in
/-- Counterexample to C4 as stated: completing `T02` rewrites the plan,
and the incomplete task `T01` — whose retained `raw_lines` start with
`- [ ] **T01: Set up tooling**` — is not re-emitted with that original
line: no line of the written document equals it. -/
theorem C4_raw_lines_not_reemitted :
    ∃ doc : List Char,
      (updateTaskStatus c4Now c4Tasks "T02".data "done".data none).2 =
        some doc ∧
      "- [ ] **T01: Set up tooling**".data ∈
        ((c4Tasks.head?.map Task.raw_lines).getD []) ∧
      "- [ ] **T01: Set up tooling**".data ∉ splitLines doc := by
  refine ⟨_, rfl, by decide, by decide⟩

/-! ### C5: the validation gate (`CodingAgent._run_lint_and_typecheck`)

`parse_result` extracts the exit code from a captured command output:
`result.split("Command exited with code:")[1].split("---")[0].strip()`
fed to `int(...)` inside a `try`, with `code = 1` on exception and
`code = 0` when the marker is absent. -/

def markerStr : List Char := "Command exited with code:".data

/-- `int(s)` digit tail: ASCII digits, single underscores allowed between
digits.  (Python `int` also accepts non-ASCII decimal digits; those do
not occur in captured bash output.) -/
def pyIntDigits (acc : Nat) : List Char → Option Nat
  | [] => some acc
  | c :: rest =>
    if c.isDigit then pyIntDigits (acc * 10 + (c.toNat - 48)) rest
    else if c = '_' then
      match rest with
      | [] => none
      | d :: rest2 =>
        if d.isDigit then pyIntDigits (acc * 10 + (d.toNat - 48)) rest2
        else none
    else none

/-- `int(s)` body after the optional sign: a non-empty digit run. -/
def pyIntCore : List Char → Option Nat
  | [] => none
  | c :: rest => if c.isDigit then pyIntDigits (c.toNat - 48) rest else none

/-- Python `int(s)` on an already-stripped string. -/
def pyInt (s : List Char) : Option Int :=
  match s with
  | '-' :: rest => (pyIntCore rest).map (fun n => -(n : Int))
  | '+' :: rest => (pyIntCore rest).map (fun n => (n : Int))
  | _ => (pyIntCore s).map (fun n => (n : Int))

/-- The stripped text between the first marker occurrence and the next
`---` (Python `result.split(marker)[1].split("---")[0].strip()`). -/
def codeField (result : List Char) : List Char :=
  pyStrip (beforeFirst "---".data
    (beforeFirst markerStr (afterFirst markerStr result)))

/-- `parse_result` of `_run_lint_and_typecheck`: the extracted exit code
paired with the unchanged output text. -/
def parse_result (result : List Char) : Int × List Char :=
  let code : Int :=
    if containsSub markerStr result then
      match pyInt (codeField result) with
      | some n => n
      | none => 1
    else 0
  (code, result)

/-- `_run_lint_and_typecheck`'s verdict: both commands' codes are 0. -/
def runLintAndTypecheckSuccess (lint tc : List Char) : Bool :=
  ((parse_result lint).1 == 0) && ((parse_result tc).1 == 0)

/-- C5 (corrected): the exit-code extraction is as claimed except on one
point — when the marker is *present but unparsable*, the code becomes 1
(the `except` branch), not the claimed default of 0; only an *absent*
marker defaults to 0.  Amended: the code is 0 when the marker is absent,
`n` when the stripped field between the first marker and the next `---`
parses as the integer `n`, and 1 when it does not parse; the gate passes
exactly when both commands' extracted codes are 0. -/
theorem C5_gate_exit_codes (lint tc : List Char) :
    (containsSub markerStr lint = false → (parse_result lint).1 = 0) ∧
    (∀ n : Int, containsSub markerStr lint = true →
       pyInt (codeField lint) = some n → (parse_result lint).1 = n) ∧
    (containsSub markerStr lint = true → pyInt (codeField lint) = none →
       (parse_result lint).1 = 1) ∧
    (runLintAndTypecheckSuccess lint tc = true ↔
       (parse_result lint).1 = 0 ∧ (parse_result tc).1 = 0) := by
  refine ⟨?_, ?_, ?_, ?_⟩
  · intro h
    show (if containsSub markerStr lint then _ else (0 : Int)) = 0
    rw [h]
    rfl
  · intro n h hp
    show (if containsSub markerStr lint then _ else (0 : Int)) = n
    rw [h, if_pos rfl, hp]
  · intro h hp
    show (if containsSub markerStr lint then _ else (0 : Int)) = 1
    rw [h, if_pos rfl, hp]
  · simp [runLintAndTypecheckSuccess]

/-- A captured output whose marker field parses as 2. -/
def c5Code2 : List Char :=
  "--- stdout ---\nlint run\n--- stderr ---\nerrors\n--- Command exited with code: 2 ---".data

/-- A captured output with no exit-code marker (the command exited 0). -/
def c5Clean : List Char := "--- stdout ---\nall good\n--- stderr ---".data

/-- A captured output whose stdout itself contains the marker text with a
non-numeric field. -/
def c5Odd : List Char :=
  "--- stdout ---\nCommand exited with code: oops\n--- stderr ---".data

theorem C5_gate_exit_codes_witness :
    (parse_result c5Code2).1 = 2 ∧ (parse_result c5Clean).1 = 0 ∧
      runLintAndTypecheckSuccess c5Clean c5Clean = true :=
  ⟨(C5_gate_exit_codes c5Code2 c5Clean).2.1 2 (by decide) (by decide),
   (C5_gate_exit_codes c5Clean c5Code2).1 (by decide),
   (C5_gate_exit_codes c5Clean c5Clean).2.2.2.mpr
     ⟨(C5_gate_exit_codes c5Clean c5Code2).1 (by decide),
      (C5_gate_exit_codes c5Clean c5Code2).1 (by decide)⟩⟩

/-- Counterexample to C5 as stated: an output containing the marker with
an unparsable field yields code 1 — not the claimed default of 0 — and
the gate fails. -/
theorem C5_unparsable_code_is_one :
    containsSub markerStr c5Odd = true ∧ pyInt (codeField c5Odd) = none ∧
      (parse_result c5Odd).1 = 1 ∧
      runLintAndTypecheckSuccess c5Odd c5Clean = false :=
  ⟨by decide, by decide, by decide, by decide⟩

/-! ### C8: `get_next_task` -/

theorem find?_first {α : Type} (p : α → Bool) :
    ∀ (l : List α) (a : α), l.find? p = some a →
      ∃ pre post, l = pre ++ a :: post ∧ ∀ x ∈ pre, p x = false
  | [], a, h => by simp at h
  | x :: l, a, h => by
    by_cases hx : p x = true
    · rw [List.find?_cons_of_pos _ hx] at h
      exact ⟨[], l, by simp [Option.some_inj.mp h], by simp⟩
    · rw [List.find?_cons_of_neg _ hx] at h
      obtain ⟨pre, post, hl, hpre⟩ := find?_first p l a h
      refine ⟨x :: pre, post, by rw [hl]; rfl, ?_⟩
      intro y hy
      rcases List.mem_cons.mp hy with h1 | h1
      · rw [h1]
        exact Bool.not_eq_true _ ▸ (by simpa using hx)
      · exact hpre y h1

/-- C8: `get_next_task` returns the first task in document order whose
status is `todo` and whose every dependency id resolves through the task
map to a task with status `done`; a dependency id that resolves to no
task disqualifies its owner; and it returns `none` exactly when no task
is eligible. -/
theorem C8_next_task (tasks : List Task) :
    (∀ t, getNextTask tasks = some t →
       t.status = "todo".data ∧
       (∀ dep ∈ t.depends_on,
          ∃ u, taskMapGet tasks dep = some u ∧ u.status = "done".data) ∧
       ∃ pre post, tasks = pre ++ t :: post ∧
         ∀ u ∈ pre, eligibleTask tasks u = false) ∧
    (∀ t ∈ tasks, ∀ dep ∈ t.depends_on, taskMapGet tasks dep = none →
       eligibleTask tasks t = false) ∧
    (getNextTask tasks = none ↔ ∀ t ∈ tasks, eligibleTask tasks t = false) := by
  refine ⟨?_, ?_, ?_⟩
  · intro t ht
    have hel := List.find?_some ht
    simp only [eligibleTask, Bool.and_eq_true, decide_eq_true_eq,
      List.all_eq_true] at hel
    refine ⟨hel.1, ?_, find?_first _ tasks t ht⟩
    intro dep hdep
    have hd := hel.2 dep hdep
    unfold depMet at hd
    rcases hu : taskMapGet tasks dep with _ | u
    · rw [hu] at hd
      have hb : (false : Bool) = true := hd
      exact absurd hb (by decide)
    · rw [hu] at hd
      exact ⟨u, rfl, by simpa using hd⟩
  · intro t _ dep hdep hnone
    rcases heq : eligibleTask tasks t with _ | _
    · rfl
    · exfalso
      simp only [eligibleTask, Bool.and_eq_true, decide_eq_true_eq,
        List.all_eq_true] at heq
      have hd := heq.2 dep hdep
      unfold depMet at hd
      rw [hnone] at hd
      have hb : (false : Bool) = true := hd
      exact absurd hb (by decide)
  · unfold getNextTask
    rw [List.find?_eq_none]
    constructor
    · intro h t ht
      simpa using h t ht
    · intro h t ht
      simp [h t ht]

/-- Tasks for the C8 witness: `A` is `todo` with no dependencies, `B` is
`todo` and depends on `A`. -/
def c8A : Task :=
  { id := "A".data, description := "First".data, status := "todo".data,
    depends_on := [], notes := none, raw_lines := [] }

def c8B : Task :=
  { id := "B".data, description := "Second".data, status := "todo".data,
    depends_on := ["A".data], notes := none, raw_lines := [] }

theorem C8_next_task_witness :
    c8A.status = "todo".data ∧
    (∀ dep ∈ c8A.depends_on,
       ∃ u, taskMapGet [c8A, c8B] dep = some u ∧
         u.status = "done".data) ∧
    ∃ pre post, [c8A, c8B] = pre ++ c8A :: post ∧
      ∀ u ∈ pre, eligibleTask [c8A, c8B] u = false :=
  (C8_next_task [c8A, c8B]).1 c8A (by decide)

/-! ### C9: `update_task_status` -/

theorem any_updateLast {p : Task → Bool} {f : Task → Task}
    (hp : ∀ t, p (f t) = p t) :
    ∀ l : List Task, (updateLast p f l).any p = l.any p
  | [] => rfl
  | t :: rest => by
    unfold updateLast
    by_cases ha : rest.any p = true
    · rw [if_pos ha]
      show (p t || (updateLast p f rest).any p) = (p t || rest.any p)
      rw [any_updateLast hp rest]
    · rw [if_neg ha]
      by_cases hpt : p t = true
      · rw [if_pos hpt]
        show (p (f t) || rest.any p) = (p t || rest.any p)
        rw [hp t]
      · rw [if_neg hpt]

theorem length_updateLast (p : Task → Bool) (f : Task → Task) :
    ∀ l : List Task, (updateLast p f l).length = l.length
  | [] => rfl
  | t :: rest => by
    unfold updateLast
    by_cases ha : rest.any p = true
    · rw [if_pos ha]
      show (updateLast p f rest).length + 1 = _
      rw [length_updateLast p f rest]
      rfl
    · rw [if_neg ha]
      by_cases hpt : p t = true
      · rw [if_pos hpt]
        rfl
      · rw [if_neg hpt]

theorem updateLast_updateLast {p : Task → Bool} {f : Task → Task}
    (hp : ∀ t, p (f t) = p t) (hf : ∀ t, f (f t) = f t) :
    ∀ l : List Task, updateLast p f (updateLast p f l) = updateLast p f l
  | [] => rfl
  | t :: rest => by
    conv_lhs => rw [updateLast]
    by_cases ha : rest.any p = true
    · rw [if_pos ha]
      conv_lhs => rw [updateLast]
      rw [if_pos (by rw [any_updateLast hp rest]; exact ha)]
      rw [updateLast_updateLast hp hf rest]
      conv_rhs => rw [updateLast]
      rw [if_pos ha]
    · rw [if_neg ha]
      by_cases hpt : p t = true
      · rw [if_pos hpt]
        conv_lhs => rw [updateLast]
        rw [if_neg ha, if_pos (by rw [hp t]; exact hpt), hf t]
        conv_rhs => rw [updateLast]
        rw [if_neg ha, if_pos hpt]
      · rw [if_neg hpt]

theorem setDoneTask_id (notes : Option (List Char)) (t : Task) :
    (setDoneTask notes t).id = t.id := rfl

theorem setDoneTask_setDoneTask (notes : Option (List Char)) (t : Task) :
    setDoneTask notes (setDoneTask notes t) = setDoneTask notes t := by
  rcases notes with _ | n
  · rfl
  · unfold setDoneTask
    by_cases hn : n = [] <;> simp [hn]

/-- `find?` over the reversed updated list still finds a match when the
original did (the update preserves every task's id). -/
theorem taskMapGet_updateLast_isSome (tid : List Char)
    (notes : Option (List Char)) (tasks : List Task) :
    (taskMapGet (updateLast (fun t => t.id = tid) (setDoneTask notes) tasks)
        tid).isSome =
      (taskMapGet tasks tid).isSome := by
  unfold taskMapGet
  have hiff : ∀ {a b : Bool}, (a = true ↔ b = true) → a = b := by
    intro a b h
    cases a <;> cases b <;> simp_all
  apply hiff
  rw [List.find?_isSome, List.find?_isSome]
  constructor
  · rintro ⟨u, hu, hp⟩
    have := List.mem_reverse.mp hu
    -- map back along any_updateLast
    have hany : tasks.any (fun t => decide (t.id = tid)) = true := by
      rw [← any_updateLast (p := fun t => decide (t.id = tid))
        (f := setDoneTask notes) (fun t => by
          show decide ((setDoneTask notes t).id = tid) =
            decide (t.id = tid)
          rw [setDoneTask_id]) tasks]
      exact List.any_eq_true.mpr ⟨u, this, hp⟩
    obtain ⟨v, hv, hvp⟩ := List.any_eq_true.mp hany
    exact ⟨v, List.mem_reverse.mpr hv, hvp⟩
  · rintro ⟨u, hu, hp⟩
    have := List.mem_reverse.mp hu
    have hany : (updateLast (fun t => t.id = tid) (setDoneTask notes)
        tasks).any (fun t => decide (t.id = tid)) = true := by
      rw [any_updateLast (p := fun t => decide (t.id = tid))
        (f := setDoneTask notes) (fun t => by
          show decide ((setDoneTask notes t).id = tid) =
            decide (t.id = tid)
          rw [setDoneTask_id]) tasks]
      exact List.any_eq_true.mpr ⟨u, this, hp⟩
    obtain ⟨v, hv, hvp⟩ := List.any_eq_true.mp hany
    exact ⟨v, List.mem_reverse.mpr hv, hvp⟩

/-- C9: `update_task_status` with any status other than `done` is a
no-op — the task list is unchanged and nothing is written — so a task's
status only ever moves to `done`; completing the same id twice (same
notes, same timestamp) is idempotent — the second call returns the same
task list and writes the same document, with no duplicated task (the
update never changes the list's length). -/
theorem C9_update_task_status (now : List Char) (tasks : List Task)
    (tid ns : List Char) (notes : Option (List Char)) :
    (ns ≠ "done".data → updateTaskStatus now tasks tid ns notes =
      (tasks, none)) ∧
    updateTaskStatus now
        (updateTaskStatus now tasks tid "done".data notes).1 tid
        "done".data notes =
      updateTaskStatus now tasks tid "done".data notes ∧
    (updateTaskStatus now tasks tid ns notes).1.length = tasks.length := by
  have hp : ∀ t : Task,
      (fun t : Task => decide (t.id = tid)) (setDoneTask notes t) =
        (fun t : Task => decide (t.id = tid)) t :=
    fun t => by
      show decide ((setDoneTask notes t).id = tid) = decide (t.id = tid)
      rw [setDoneTask_id]
  refine ⟨?_, ?_, ?_⟩
  · intro hns
    unfold updateTaskStatus
    rcases h : taskMapGet tasks tid with _ | u
    · rfl
    · rw [if_pos hns]
  · unfold updateTaskStatus
    rcases h : taskMapGet tasks tid with _ | u
    · rw [h]
    · rw [if_neg (by simp)]
      have h2 : (taskMapGet (updateLast (fun t => t.id = tid)
          (setDoneTask notes) tasks) tid).isSome = true := by
        rw [taskMapGet_updateLast_isSome, h]
        rfl
      rcases h3 : taskMapGet (updateLast (fun t => t.id = tid)
          (setDoneTask notes) tasks) tid with _ | v
      · rw [h3] at h2
        exact absurd h2 (by decide)
      · rw [if_neg (by simp)]
        rw [updateLast_updateLast hp (setDoneTask_setDoneTask notes) tasks]
  · unfold updateTaskStatus
    rcases h : taskMapGet tasks tid with _ | u
    · rfl
    · by_cases hns : ns ≠ "done".data
      · rw [if_pos hns]
      · rw [if_neg hns]
        exact length_updateLast _ _ tasks

/-- Tasks for the C9 witness. -/
def c9Tasks : List Task :=
  [{ id := "T1".data, description := "First".data, status := "todo".data,
     depends_on := [], notes := none, raw_lines := [] }]

theorem C9_update_task_status_witness :
    updateTaskStatus c4Now c9Tasks "T1".data "failed".data none =
      (c9Tasks, none) ∧
    updateTaskStatus c4Now
        (updateTaskStatus c4Now c9Tasks "T1".data "done".data
          (some "ok".data)).1 "T1".data "done".data (some "ok".data) =
      updateTaskStatus c4Now c9Tasks "T1".data "done".data
        (some "ok".data) :=
  ⟨(C9_update_task_status c4Now c9Tasks "T1".data "failed".data none).1
     (by decide),
   (C9_update_task_status c4Now c9Tasks "T1".data "done".data
     (some "ok".data)).2.1⟩

/-! ### C6 and C7: `CodingAgent.execute_task`

The LLM transport is modelled as an oracle giving each attempt's outcome:
the `send_message` call either raises `InternalServerError`, raises some
other exception, or returns a response text.  `time.sleep` calls are
recorded as a list of delays.  Python `str.lower()` is modelled as ASCII
lowering (`Char.toLower`); every keyword the code checks is ASCII. -/

inductive SendOutcome
  | internalServerError
  | otherException
  | response (text : List Char)
deriving DecidableEq

/-- Python `s.lower()` (ASCII). -/
def pyLower (s : List Char) : List Char := s.map Char.toLower

/-- The dispatch failure-keyword list of `execute_task`. -/
def dispatchFailureKeywords : List (List Char) :=
  ["unable to complete".data, "task failed".data, "could not perform".data,
   "i am unable".data, "i cannot".data]

/-- The dispatch-phase failure test:
`response_text.strip().startswith("Error:") or any(kw in response_text.lower() ...)`. -/
def dispatchRejects (text : List Char) : Bool :=
  "Error:".data.isPrefixOf (pyStrip text) ||
    dispatchFailureKeywords.any (fun kw => containsSub kw (pyLower text))

inductive DispatchResult
  | failedLLM (text : List Char)
  | dispatched (text : List Char)
  | transportFailed
deriving DecidableEq

/-- The `for attempt in range(max_retries)` dispatch loop: the result,
the number of `send_message` attempts made, and the sleeps performed.
`fuel` is the number of attempts still allowed (so the
`attempt < max_retries - 1` retry guard is `fuel ≠ 0` after taking the
current attempt). -/
def dispatchGo (outcomes : Nat → SendOutcome) :
    Nat → Nat → DispatchResult × Nat × List Nat
  | 0, _ => (.transportFailed, 0, [])
  | fuel + 1, attempt =>
    match outcomes attempt with
    | .response text =>
      if dispatchRejects text then (.failedLLM text, 1, [])
      else (.dispatched text, 1, [])
    | .otherException => (.transportFailed, 1, [])
    | .internalServerError =>
      if fuel = 0 then (.transportFailed, 1, [])
      else
        let r := dispatchGo outcomes fuel (attempt + 1)
        (r.1, r.2.1 + 1, 5 :: r.2.2)

/-- The dispatch phase with `max_retries = 3`, `retry_delay_seconds = 5`. -/
def dispatchPhase (outcomes : Nat → SendOutcome) :
    DispatchResult × Nat × List Nat :=
  dispatchGo outcomes 3 0

/-- C6: if every attempt raises `InternalServerError`, exactly 3 attempts
are made with a 5-second sleep between consecutive attempts and the task
returns a transport failure; if the first `k < 3` attempts raise it and
attempt `k` returns a non-failing response, execution proceeds (the
response is dispatched) after `k + 1` attempts and `k` sleeps; any other
exception yields a transport failure immediately, after a single attempt
and no sleep. -/
theorem C6_dispatch_retries (outcomes : Nat → SendOutcome) :
    ((∀ i < 3, outcomes i = .internalServerError) →
       dispatchPhase outcomes = (.transportFailed, 3, [5, 5])) ∧
    (∀ k < 3, (∀ i < k, outcomes i = .internalServerError) →
       ∀ text, outcomes k = .response text → dispatchRejects text = false →
       dispatchPhase outcomes =
         (.dispatched text, k + 1, List.replicate k 5)) ∧
    (outcomes 0 = .otherException →
       dispatchPhase outcomes = (.transportFailed, 1, [])) := by
  refine ⟨?_, ?_, ?_⟩
  · intro h
    have e2 : dispatchGo outcomes 1 2 = (.transportFailed, 1, []) := by
      unfold dispatchGo
      rw [h 2 (by norm_num)]
      simp
    have e1 : dispatchGo outcomes 2 1 = (.transportFailed, 2, [5]) := by
      unfold dispatchGo
      rw [h 1 (by norm_num)]
      simp [e2]
    unfold dispatchPhase dispatchGo
    rw [h 0 (by norm_num)]
    simp [e1]
  · intro k hk hpre text hresp hok
    have hstep : ∀ n a, outcomes a = SendOutcome.response text →
        dispatchGo outcomes (n + 1) a = (.dispatched text, 1, []) := by
      intro n a ha
      unfold dispatchGo
      rw [ha]
      simp [hok]
    match k, hk with
    | 0, _ =>
      exact hstep 2 0 hresp
    | 1, _ =>
      unfold dispatchPhase dispatchGo
      rw [hpre 0 (by norm_num)]
      have e1 : dispatchGo outcomes 2 1 = (.dispatched text, 1, []) :=
        hstep 1 1 hresp
      simp [e1]
    | 2, _ =>
      unfold dispatchPhase dispatchGo
      rw [hpre 0 (by norm_num)]
      have e2 : dispatchGo outcomes 1 2 = (.dispatched text, 1, []) :=
        hstep 0 2 hresp
      have e1 : dispatchGo outcomes 2 1 = (.dispatched text, 2, [5]) := by
        unfold dispatchGo
        rw [hpre 1 (by norm_num)]
        simp [e2]
      simp [e1]
  · intro h
    unfold dispatchPhase dispatchGo
    rw [h]

/-- A dispatch transport oracle that always raises the transient error. -/
def c6AllISE : Nat → SendOutcome := fun _ => .internalServerError

/-- An oracle raising the transient error twice, then answering. -/
def c6TwoISE : Nat → SendOutcome := fun i =>
  if i < 2 then .internalServerError else .response "Done with the task.".data

theorem C6_dispatch_retries_witness :
    dispatchPhase c6AllISE = (.transportFailed, 3, [5, 5]) ∧
    dispatchPhase c6TwoISE =
      (.dispatched "Done with the task.".data, 3, [5, 5]) :=
  ⟨(C6_dispatch_retries c6AllISE).1 (fun _ _ => rfl),
   by
    have h := (C6_dispatch_retries c6TwoISE).2.1 2 (by norm_num)
      (fun i hi => by
        have : i < 2 := hi
        show (if i < 2 then SendOutcome.internalServerError else _) = _
        rw [if_pos this])
      "Done with the task.".data (by decide) (by decide)
    simpa using h⟩

/-- A fix-loop `send_message` outcome: an exception or a response text. -/
inductive FixOutcome
  | exception
  | response (text : List Char)
deriving DecidableEq

/-- The `llm_gave_up_keywords` list of `execute_task`. -/
def gaveUpKeywords : List (List Char) :=
  ["unable to fix".data, "cannot resolve".data, "cannot be fixed".data,
   "false positive and i cannot proceed".data, "i am unable".data,
   "i cannot".data, "no further fix".data, "stuck".data,
   "not possible".data, "not enough information".data]

/-- The surrender test: `any(keyword in fix_response_text.lower() ...)`. -/
def givesUp (text : List Char) : Bool :=
  gaveUpKeywords.any (fun kw => containsSub kw (pyLower text))

/-- The outcome of the `while True` fix loop, recording how many
lint/typecheck validation calls were made in total. -/
inductive FixResult
  | succeeded (validations : Nat)
  | gaveUp (validations : Nat)
  | transportFailed (validations : Nat)
  | outOfFuel (validations : Nat)
deriving DecidableEq

/-- The fix loop: pass `i` runs one validation (`gates i`); on failure it
sends one fix prompt (`fixes i`): an exception or a surrendering response
breaks out as a failure, otherwise the loop repeats.  The Python loop is
unbounded; `fuel` bounds the observation. -/
def fixLoop (gates : Nat → Bool) (fixes : Nat → FixOutcome) :
    Nat → Nat → FixResult
  | 0, i => .outOfFuel i
  | fuel + 1, i =>
    if gates i then .succeeded (i + 1)
    else
      match fixes i with
      | .exception => .transportFailed (i + 1)
      | .response text =>
        if givesUp text then .gaveUp (i + 1)
        else fixLoop gates fixes fuel (i + 1)

theorem fixLoop_gaveUp_at (gates : Nat → Bool) (fixes : Nat → FixOutcome) :
    ∀ (i fuel k : Nat) (t : List Char),
      (∀ j < i, gates (k + j) = false ∧
        ∃ tj, fixes (k + j) = .response tj ∧ givesUp tj = false) →
      gates (k + i) = false → fixes (k + i) = .response t →
      givesUp t = true → i < fuel →
      fixLoop gates fixes fuel k = .gaveUp (k + i + 1)
  | 0, fuel + 1, k, t, _, hgate, hfix, hup, _ => by
    rw [show k + 0 = k from rfl] at hgate hfix
    unfold fixLoop
    simp [hgate, hfix, hup]
  | i + 1, fuel + 1, k, t, hpre, hgate, hfix, hup, hfuel => by
    obtain ⟨hg0, t0, hf0, hup0⟩ := hpre 0 (by omega)
    rw [show k + 0 = k from rfl] at hg0 hf0
    have hrec := fixLoop_gaveUp_at gates fixes i fuel (k + 1) t
      (fun j hj => by
        have h := hpre (j + 1) (by omega)
        rwa [show k + (j + 1) = k + 1 + j by omega] at h)
      (by rwa [show k + 1 + i = k + (i + 1) by omega])
      (by rwa [show k + 1 + i = k + (i + 1) by omega]) hup (by omega)
    unfold fixLoop
    simp only [hg0, hf0, hup0, Bool.false_eq_true, if_false]
    rw [hrec]
    congr 1
    omega

/-- C7: whenever the fix loop reaches pass `i` (every earlier pass ran a
failing validation and a non-surrendering fix response) and pass `i`'s
fix response contains a surrender phrase, the loop halts at once as a
give-up failure with exactly `i + 1` validation calls made — none after
the surrendering response; and a response containing `i cannot` (any
case) is a surrendering response. -/
theorem C7_surrender_halts (gates : Nat → Bool) (fixes : Nat → FixOutcome)
    (i fuel : Nat) (t : List Char)
    (hpre : ∀ j < i, gates j = false ∧
      ∃ tj, fixes j = .response tj ∧ givesUp tj = false)
    (hgate : gates i = false) (hfix : fixes i = .response t)
    (hup : containsSub "i cannot".data (pyLower t) = true)
    (hfuel : i < fuel) :
    fixLoop gates fixes fuel 0 = .gaveUp (i + 1) := by
  have hgu : givesUp t = true := by
    unfold givesUp
    rw [List.any_eq_true]
    exact ⟨"i cannot".data, by decide, hup⟩
  have := fixLoop_gaveUp_at gates fixes i fuel 0 t
    (fun j hj => by simpa using hpre j hj)
    (by simpa using hgate) (by simpa using hfix) hgu hfuel
  simpa using this

/-- Gates and fixes for the C7 witness: validation always fails; the
first fix response keeps going, the second surrenders with `I cannot`. -/
def c7Gates : Nat → Bool := fun _ => false

def c7Fixes : Nat → FixOutcome := fun j =>
  if j = 0 then .response "Applied an edit to MyComponent.tsx.".data
  else .response "I cannot resolve the remaining error.".data

theorem C7_surrender_halts_witness :
    fixLoop c7Gates c7Fixes 5 0 = .gaveUp 2 :=
  C7_surrender_halts c7Gates c7Fixes 1 5
    "I cannot resolve the remaining error.".data
    (fun j hj => by
      have hj0 : j = 0 := by omega
      subst hj0
      exact ⟨rfl, "Applied an edit to MyComponent.tsx.".data, rfl,
        by decide⟩)
    rfl rfl (by decide) (by norm_num)

end MigrationAgent
